import Mathlib

/-!
Verification development for the calzone geometry construction and lifetime
engine (`src/geometry.cc` and companions).  The C++ code is shallowly embedded
over `ℚ`: machine doubles become rationals, Geant4's affine transforms become
the `Affine` structure below (row-vector convention, exactly as
`G4AffineTransform`), the solid/volume assembly passes become recursive
functions over a rose tree of volume descriptions, and the reference-counted
container becomes an explicit state machine.
-/

/- The library marks the rational operations irreducible, which blocks
`decide`-evaluation of the embedding on concrete geometries; restore the
default reducibility (this affects elaboration only, not the kernel). -/
set_option allowUnsafeReducibility true in
attribute [semireducible] Rat.mul Rat.add Rat.sub Rat.inv

namespace Calzone

/-- The rational scalars standing in for machine doubles. -/
abbrev Q := ℚ

/-- Native length unit: `CLHEP::cm` expressed in native (mm) units. -/
def cmU : Q := 10

/-- Native volume unit `CLHEP::cm3`. -/
def cm3U : Q := 1000

/-- Rational stand-in for `pi`; the external kernel computes with approximate
doubles and no claim depends on the numeric value of an angle. -/
def piQ : Q := 355 / 113

/-- Rational stand-in for `CLHEP::twopi`. -/
def twopiQ : Q := 2 * piQ

/-- Rational stand-in for `DBL_MAX`, the initial value of the envelope
min/max accumulators in `build_envelope`. -/
def dblMaxQ : Q := 2 ^ 1024

/-- Computable stand-in for the machine's approximate `std::sqrt`
(used only inside envelope sizing; no claim depends on its value). -/
def sqrtQ (q : Q) : Q := (Nat.sqrt (q.num.toNat * q.den) : Q) / (q.den : Q)

/-- A 3-vector of rationals (models `G4ThreeVector`). -/
structure V3 where
  x : Q
  y : Q
  z : Q
deriving DecidableEq, Repr

def V3.zero : V3 := ⟨0, 0, 0⟩

def V3.add (a b : V3) : V3 := ⟨a.x + b.x, a.y + b.y, a.z + b.z⟩

def V3.neg (a : V3) : V3 := ⟨-a.x, -a.y, -a.z⟩

def V3.smul (c : Q) (a : V3) : V3 := ⟨c * a.x, c * a.y, c * a.z⟩

/-- A 3x3 rational matrix (models the rotation part of `G4AffineTransform`,
stored row-major as `rxx .. rzz`). -/
structure M3 where
  xx : Q
  xy : Q
  xz : Q
  yx : Q
  yy : Q
  yz : Q
  zx : Q
  zy : Q
  zz : Q
deriving DecidableEq, Repr

def M3.one : M3 := ⟨1, 0, 0, 0, 1, 0, 0, 0, 1⟩

def M3.mul (a b : M3) : M3 :=
  ⟨a.xx * b.xx + a.xy * b.yx + a.xz * b.zx,
   a.xx * b.xy + a.xy * b.yy + a.xz * b.zy,
   a.xx * b.xz + a.xy * b.yz + a.xz * b.zz,
   a.yx * b.xx + a.yy * b.yx + a.yz * b.zx,
   a.yx * b.xy + a.yy * b.yy + a.yz * b.zy,
   a.yx * b.xz + a.yy * b.yz + a.yz * b.zz,
   a.zx * b.xx + a.zy * b.yx + a.zz * b.zx,
   a.zx * b.xy + a.zy * b.yy + a.zz * b.zy,
   a.zx * b.xz + a.zy * b.yz + a.zz * b.zz⟩

def M3.transpose (a : M3) : M3 :=
  ⟨a.xx, a.yx, a.zx, a.xy, a.yy, a.zy, a.xz, a.yz, a.zz⟩

/-- Row vector times matrix, `(p * R)_j = sum_i p_i R_ij`; this is how
`G4AffineTransform::TransformPoint` combines the point with the stored
rotation entries. -/
def V3.vecMul (p : V3) (m : M3) : V3 :=
  ⟨p.x * m.xx + p.y * m.yx + p.z * m.zx,
   p.x * m.xy + p.y * m.yy + p.z * m.zy,
   p.x * m.xz + p.y * m.yz + p.z * m.zz⟩

/-- Model of `G4AffineTransform`: a rotation part `r` and a translation `t`,
acting on points as `p * r + t` (row-vector convention of Geant4). -/
structure Affine where
  r : M3
  t : V3
deriving DecidableEq, Repr

def Affine.idA : Affine := ⟨M3.one, V3.zero⟩

/-- `G4AffineTransform::TransformPoint`. -/
def Affine.transformPoint (a : Affine) (p : V3) : V3 :=
  (p.vecMul a.r).add a.t

/-- `G4AffineTransform::InverseTransformPoint`: `(p - t) * r^T`. -/
def Affine.inverseTransformPoint (a : Affine) (p : V3) : V3 :=
  (p.add a.t.neg).vecMul a.r.transpose

/-- Product of affine transforms, Geant4 convention: `(a * b)` applies `a`
first, then `b`; rotation parts multiply and `t = t_a * r_b + t_b`
(`G4AffineTransform::Product`). -/
def Affine.mul (a b : Affine) : Affine :=
  ⟨a.r.mul b.r, (a.t.vecMul b.r).add b.t⟩

/-- `G4AffineTransform::Inverse`: transpose the rotation entries and set
`t' = -(t * r^T)`; a true inverse whenever the rotation is orthogonal, which
the external kernel guarantees for placements. -/
def Affine.inv (a : Affine) : Affine :=
  ⟨a.r.transpose, (a.t.neg).vecMul a.r.transpose⟩

/-- `G4AffineTransform::IsTranslated`. -/
def Affine.isTranslated (a : Affine) : Bool := decide (a.t ≠ V3.zero)

/-- `G4AffineTransform::IsRotated`; Geant4 tests the diagonal entries, which
for the orthogonal rotations supplied by the host layer is equivalent to the
rotation part differing from the identity. -/
def Affine.isRotated (a : Affine) : Bool := decide (a.r ≠ M3.one)

/-- The `IsTranslated() || IsRotated()` test the source applies to decide
whether a transform must be taken into account. -/
def Affine.moved (a : Affine) : Bool := a.isTranslated || a.isRotated

/-- Model of the `G4AffineTransform(rot, tlate)` constructor used by
`local_transform` and `compute_transform`; the Geant4 constructor stores the
transpose of the supplied `G4RotationMatrix` (row- versus column-action), and
a null rotation pointer means the identity. -/
def Affine.ofRotTrans (m : Option M3) (t : V3) : Affine :=
  ⟨(m.getD M3.one).transpose, t⟩

/-! ### Error signalling

The process-wide error slot (`set_error` / `any_error` / `clear_error`,
an external collaborator of the core) is threaded through the embedding as an
`Option Err` component of the builder state. -/

inductive ErrKind where
  | valueError
  | memoryError
deriving DecidableEq, Repr

structure Err where
  kind : ErrKind
  message : String
deriving DecidableEq, Repr

/-- Single quote character, used when formatting error messages. -/
def sq : String := "\x27"

/-- Dotted path names: `fmt::format("{}.{}", path, name)` iterated from the
root.  The host layer (not under `src/`) validates volume names as
identifiers, so the dot-join is injective and tables can equivalently be
keyed by the sequence of names (see `Path`). -/
def dotJoin (p : List String) : String := String.intercalate "." p

/-- A path: the sequence of volume names from the root down to a node.  The
source keys its tables by the dotted join `dotJoin`; since names are
dot-free identifiers the two keyings are in bijection. -/
abbrev Path := List String

/-- Message of `get_volume`: `unknown volume '<path>'`. -/
def unknownVolumeMsg (p : Path) : String :=
  "unknown volume " ++ sq ++ dotJoin p ++ sq

def unknownVolumeErr (p : Path) : Err := ⟨.valueError, unknownVolumeMsg p⟩

/-- Message of `compute_transform`: `'<frame>' does not contain '<volume>'`. -/
def notContainedMsg (frame vol : Path) : String :=
  sq ++ dotJoin frame ++ sq ++ " does not contain " ++ sq ++ dotJoin vol ++ sq

def notContainedErr (frame vol : Path) : Err := ⟨.valueError, notContainedMsg frame vol⟩

/-- Message set by `build_solids` when no more specific error exists. -/
def badSolidMsg (p : Path) : String :=
  "bad " ++ sq ++ dotJoin p ++ sq ++ " volume (could not create solid)"

/-- Message of `build_geant4_tessellation` on a rejected facet. -/
def badVerticesMsg (p : Path) : String :=
  "bad vertices for tessellation " ++ sq ++ dotJoin p ++ sq

/-- Message of `build_volumes` on an unknown material. -/
def badMaterialMsg (p : Path) (material : String) : String :=
  "bad " ++ sq ++ dotJoin p ++ sq ++ " volume (undefined " ++ sq ++ material
    ++ sq ++ " material)"

/-! ### Association tables

`std::map` keyed by path names (solid table, `elements`, `mothers`) is
embedded as an association list with insert-or-replace assignment; entry
order is insertion order, which no claim observes (`std::map` iterates in key
order, but only lookups, sizes and key sets are ever used). -/

section Tables

variable {α β : Type} [DecidableEq α]

/-- Lookup, `map.find(k)`. -/
def afind : List (α × β) → α → Option β
  | [], _ => none
  | (k, v) :: rest, key => if k = key then some v else afind rest key

/-- Assignment `map[k] = v` (replace the entry or add one). -/
def aset : List (α × β) → α → β → List (α × β)
  | [], key, val => [(key, val)]
  | (k, v) :: rest, key, val =>
      if k = key then (key, val) :: rest else (k, v) :: aset rest key val

/-- `map.erase(k)`. -/
def aerase : List (α × β) → α → List (α × β)
  | [], _ => []
  | (k, v) :: rest, key => if k = key then rest else (k, v) :: aerase rest key

/-- The values of a table, `for (auto item : map) ... item.second`. -/
def avalues (l : List (α × β)) : List β := l.map Prod.snd

/-- The keys of a table. -/
def akeys (l : List (α × β)) : List α := l.map Prod.fst

end Tables

/-! ### Solids

The native solids are external collaborators (Geant4 plus the repository's
thin wrappers in `geometry/solids.h`); the embedding records the constructor
calls issued by `geometry.cc` as a closed datatype.  A triangular facet is
the 9-float record consumed by `build_geant4_tessellation`. -/

structure Facet where
  v0 : V3
  v1 : V3
  v2 : V3
deriving DecidableEq, Repr

inductive Solid where
  /-- Null solid pointer (`nullptr` as stored by `std::map::operator[]`). -/
  | null
  /-- `Box(name, hx, hy, hz)` with half-lengths in native units. -/
  | box (name : String) (hx hy hz : Q)
  /-- `Tubs(name, rmin, rmax, hz, phi0, dphi)`. -/
  | tubs (name : String) (rmin rmax hz phi0 dphi : Q)
  /-- `Orb(name, r)`. -/
  | orb (name : String) (r : Q)
  /-- `Sphere(name, rmax, rmin, phi0, dphi, theta0, dtheta)`. -/
  | sphere (name : String) (rmax rmin phi0 dphi theta0 dtheta : Q)
  /-- `TessellatedSolid` built facet by facet (Geant4 algorithm). -/
  | tessG4 (name : String) (facets : List Facet)
  /-- `Tessellation(name, shape)` (the repository's BVH algorithm). -/
  | tessBvh (name : String) (facets : List Facet)
  /-- `DisplacedSolid(name, solid, rotation, translation)`. -/
  | displaced (name : String) (inner : Solid) (rot : Option M3) (trans : V3)
  /-- `SubtractionSolid(name, a, b[, transform])`; `transform = none` for the
  two-operand constructor (geometrically the identity). -/
  | subtraction (name : String) (a b : Solid) (transform : Option Affine)
deriving DecidableEq, Repr

/-- Axis-aligned bounding box, as a pair of corners. -/
structure AABB where
  min : V3
  max : V3
deriving DecidableEq, Repr

/-- Bounding box of the image of an AABB under an affine transform: the
center maps through the transform and the half-widths combine through the
absolute values of the rotation entries.  For a box solid this is exactly the
extent Geant4 computes from the eight transformed vertices. -/
def aabbTransform (t : Affine) (b : AABB) : AABB :=
  let c : V3 := V3.smul (1/2) (b.min.add b.max)
  let h : V3 := V3.smul (1/2) (b.max.add b.min.neg)
  let c' := t.transformPoint c
  let hx := h.x * |t.r.xx| + h.y * |t.r.yx| + h.z * |t.r.zx|
  let hy := h.x * |t.r.xy| + h.y * |t.r.yy| + h.z * |t.r.zy|
  let hz := h.x * |t.r.xz| + h.y * |t.r.yz| + h.z * |t.r.zz|
  ⟨⟨c'.x - hx, c'.y - hy, c'.z - hz⟩, ⟨c'.x + hx, c'.y + hy, c'.z + hz⟩⟩

/-- Fold of facet vertices for tessellation extents. -/
def facetsAABB (fs : List Facet) : AABB :=
  let pts := fs.flatMap (fun f => [f.v0, f.v1, f.v2])
  let lo (sel : V3 → Q) := pts.foldl (fun a p => min a (sel p)) dblMaxQ
  let hi (sel : V3 → Q) := pts.foldl (fun a p => max a (sel p)) (-dblMaxQ)
  ⟨⟨lo V3.x, lo V3.y, lo V3.z⟩, ⟨hi V3.x, hi V3.y, hi V3.z⟩⟩

/-- Model of the external untransformed extent query (`GetExtent` /
`BoundingLimits`): exact for boxes, orbs, displaced solids and
tessellations; a bounding approximation for the remaining kinds, whose
numeric extents no claim depends on. -/
def Solid.extent : Solid → AABB
  | .null => ⟨V3.zero, V3.zero⟩
  | .box _ hx hy hz => ⟨⟨-hx, -hy, -hz⟩, ⟨hx, hy, hz⟩⟩
  | .tubs _ _ rmax hz _ _ => ⟨⟨-rmax, -rmax, -hz⟩, ⟨rmax, rmax, hz⟩⟩
  | .orb _ r => ⟨⟨-r, -r, -r⟩, ⟨r, r, r⟩⟩
  | .sphere _ rmax _ _ _ _ _ => ⟨⟨-rmax, -rmax, -rmax⟩, ⟨rmax, rmax, rmax⟩⟩
  | .tessG4 _ fs => facetsAABB fs
  | .tessBvh _ fs => facetsAABB fs
  | .displaced _ inner rot tl =>
      aabbTransform (Affine.ofRotTrans rot tl) inner.extent
  | .subtraction _ a _ _ => a.extent

/-- Model of the external `CalculateExtent(axis, limits, transform, ...)`
query with unbounded voxel limits, for all three axes at once. -/
def Solid.calcExtent (s : Solid) (t : Affine) : AABB :=
  aabbTransform t s.extent

/-- The `EInside` classification of Geant4. -/
inductive EInside where
  | kOutside
  | kSurface
  | kInside
deriving DecidableEq, Repr

/-- Half of `kCarTolerance` (Geant4 uses 1e-9 mm). -/
def deltaTol : Q := 1 / 2000000000

/-- Model of the external point-containment query `G4VSolid::Inside`:
exact for boxes (the signed box distance against the half tolerance, as in
`G4Box::Inside`); a structural model for the other kinds, which no claim
exercises away from a box. -/
def Solid.insideP : Solid → V3 → EInside
  | .null, _ => .kOutside
  | .box _ hx hy hz, p =>
      let dist := max (max (|p.x| - hx) (|p.y| - hy)) (|p.z| - hz)
      if dist > deltaTol then .kOutside
      else if dist > -deltaTol then .kSurface
      else .kInside
  | .tubs _ _ rmax hz _ _, p =>
      let dist := max (max (|p.x| - rmax) (|p.y| - rmax)) (|p.z| - hz)
      if dist > deltaTol then .kOutside
      else if dist > -deltaTol then .kSurface
      else .kInside
  | .orb _ r, p =>
      let q := p.x * p.x + p.y * p.y + p.z * p.z
      if q > r * r then .kOutside else if q = r * r then .kSurface else .kInside
  | .sphere _ rmax _ _ _ _ _, p =>
      let q := p.x * p.x + p.y * p.y + p.z * p.z
      if q > rmax * rmax then .kOutside
      else if q = rmax * rmax then .kSurface else .kInside
  | .tessG4 _ _, _ => .kOutside
  | .tessBvh _ _, _ => .kOutside
  | .displaced _ inner rot tl, p =>
      inner.insideP ((Affine.ofRotTrans rot tl).inverseTransformPoint p)
  | .subtraction _ a b _, p =>
      match a.insideP p, b.insideP p with
      | .kOutside, _ => .kOutside
      | ains, .kOutside => ains
      | _, .kInside => .kOutside
      | _, _ => .kSurface

/-- Model of the external `GetCubicVolume` query; exact for boxes, a
structural stand-in elsewhere (the kernel estimates these with floating
point; no claim depends on the numeric value). -/
def Solid.cubicVolume : Solid → Q
  | .null => 0
  | .box _ hx hy hz => 8 * hx * hy * hz
  | .tubs _ rmin rmax hz _ dphi => dphi * (rmax * rmax - rmin * rmin) * hz
  | .orb _ r => 4 / 3 * piQ * r * r * r
  | .sphere _ rmax rmin _ _ _ _ => 4 / 3 * piQ * (rmax ^ 3 - rmin ^ 3)
  | .tessG4 _ _ => 0
  | .tessBvh _ _ => 0
  | .displaced _ inner _ _ => inner.cubicVolume
  | .subtraction _ a b _ => max (a.cubicVolume - b.cubicVolume) 0

/-! ### Volume descriptions

The Rust-side `Volume` description consumed by the C++ builders (accessors
`name()`, `material()`, `shape()`, `position()`, `rotation()`,
`is_rotated()`, `is_translated()`, `sensitive()`, `volumes()`, `subtract()`,
`overlaps()`).  The host layer itself is not under `src/`; its accessors are
modelled from the spec's data model: a name, a shape with parameters, a
material name, a local position (cm) with an optional rotation matrix, a
sensitivity flag, nested children, and declared subtraction/overlap pairs. -/

inductive EnvShape where
  | box
  | cylinder
  | sphere
deriving DecidableEq, Repr

inductive ShapeS where
  /-- Box with full sizes (cm). -/
  | box (size : V3)
  /-- Cylinder: radius, thickness, length (cm) and angular section (deg). -/
  | cylinder (radius thickness length sec0 sec1 : Q)
  /-- Auto-sized envelope with a target shape and safety margin (cm). -/
  | envelope (eshape : EnvShape) (safety : Q)
  /-- Sphere: radius, thickness (cm), azimuth section (deg), zenith section
  (deg). -/
  | sphere (radius thickness az0 az1 zen0 zen1 : Q)
  /-- Tessellation: triangular facets (vertices in cm). -/
  | tessellation (facets : List Facet)
deriving DecidableEq, Repr

structure VInfo where
  name : String
  material : String
  shape : ShapeS
  position : V3
  rotation : Option M3
  sensitive : Bool
  subtract : List String
  overlaps : List (String × String)
deriving DecidableEq, Repr

inductive Volume where
  | node (info : VInfo) (children : List Volume)

def Volume.info : Volume → VInfo
  | .node i _ => i

def Volume.children : Volume → List Volume
  | .node _ cs => cs

def Volume.name (v : Volume) : String := v.info.name

/-- `Volume::is_translated`. -/
def VInfo.isTranslated (i : VInfo) : Bool := decide (i.position ≠ V3.zero)

/-- `Volume::is_rotated`. -/
def VInfo.isRotated (i : VInfo) : Bool := i.rotation.isSome

/-- `local_transform`: the affine transform of one placement, built from the
position scaled to native units and the optional rotation matrix. -/
def localTransform (i : VInfo) : Affine :=
  Affine.ofRotTrans i.rotation (V3.smul cmU i.position)

/-- The tessellation-solid construction strategy (`TSTAlgorithm`). -/
inductive TSTAlgorithm where
  | bvh
  | geant4
deriving DecidableEq, Repr

/-! ### Builder state

The solid table, the orphan list, the process-wide error slot, and a ledger
of every solid the call has `delete`d (the ledger is bookkeeping of the
embedding used to state the cleanup claims; it does not alter control
flow). -/

structure St where
  solids : List (Path × Solid)
  orphans : List Solid
  err : Option Err
  freed : List Solid
deriving DecidableEq, Repr

def St.empty : St := ⟨[], [], none, []⟩

/-- `set_error(kind, message)`. -/
def setErr (st : St) (k : ErrKind) (msg : String) : St :=
  { st with err := some ⟨k, msg⟩ }

/-! ### Solid assembly (`build_solids` and helpers) -/

def V3.sub (a b : V3) : V3 := a.add b.neg

def V3.cross (a b : V3) : V3 :=
  ⟨a.y * b.z - a.z * b.y, a.z * b.x - a.x * b.z, a.x * b.y - a.y * b.x⟩

/-- Model of the external `G4TessellatedSolid::AddFacet` acceptance test: a
facet whose vertices are (numerically) collinear has no area and is
rejected. -/
def Facet.ok (f : Facet) : Bool :=
  decide (V3.cross (f.v1.sub f.v0) (f.v2.sub f.v0) ≠ V3.zero)

/-- Facet vertices scaled to native units (`v * CLHEP::cm`). -/
def Facet.scaled (f : Facet) : Facet :=
  ⟨V3.smul cmU f.v0, V3.smul cmU f.v1, V3.smul cmU f.v2⟩

/-- `build_geant4_tessellation`: add the facets one by one; a rejected facet
deletes the partial solid and records `ValueError` `bad vertices for
tessellation '<path>'`; on success the solid is sealed. -/
def buildGeant4Tessellation (pathname : Path) (facets : List Facet) (st : St) :
    Option Solid × St :=
  if facets.all Facet.ok then
    (some (.tessG4 (dotJoin pathname) (facets.map Facet.scaled)), st)
  else
    (none, setErr st .valueError (badVerticesMsg pathname))

/-- `build_tessellation`: dispatch on the algorithm; the BVH variant wraps
the facet buffer in the repository's `Tessellation` solid. -/
def buildTessellation (alg : TSTAlgorithm) (pathname : Path)
    (facets : List Facet) (st : St) : Option Solid × St :=
  match alg with
  | .bvh => (some (.tessBvh (dotJoin pathname) facets), st)
  | .geant4 => buildGeant4Tessellation pathname facets st

/-- The limit-merging loop of `build_envelope`: per child, the transformed
extent when the child's local transform is non-trivial, its plain extent
otherwise, folded into running min/max started at `±DBL_MAX`. -/
def envelopeExtent (childSolids : List (VInfo × Solid)) : AABB :=
  childSolids.foldl
    (fun acc vs =>
      let t := localTransform vs.1
      let e := if t.moved then vs.2.calcExtent t else vs.2.extent
      ⟨⟨min acc.min.x e.min.x, min acc.min.y e.min.y, min acc.min.z e.min.z⟩,
       ⟨max acc.max.x e.max.x, max acc.max.y e.max.y, max acc.max.z e.max.z⟩⟩)
    ⟨⟨dblMaxQ, dblMaxQ, dblMaxQ⟩, ⟨-dblMaxQ, -dblMaxQ, -dblMaxQ⟩⟩

/-- `build_envelope`: size a box/cylinder/sphere to the union extent of the
already-built daughters plus the safety margin, and re-center it with a
displaced wrapper (orphaning the inner solid) when the union center is off
the origin. -/
def buildEnvelope (pathname : Path) (eshape : EnvShape) (safety : Q)
    (childSolids : List (VInfo × Solid)) (orphans : List Solid) :
    Solid × List Solid :=
  let e := envelopeExtent childSolids
  let saf := safety * cmU
  let solid : Solid :=
    match eshape with
    | .box =>
        .box (dotJoin pathname) ((e.max.x - e.min.x) / 2 + saf)
          ((e.max.y - e.min.y) / 2 + saf) ((e.max.z - e.min.z) / 2 + saf)
    | .cylinder =>
        let dx := e.max.x - e.min.x
        let dy := e.max.y - e.min.y
        let radius := sqrtQ (dx * dx + dy * dy) / 2
        .tubs (dotJoin pathname) 0 (radius + saf) ((e.max.z - e.min.z) / 2 + saf)
          0 twopiQ
    | .sphere =>
        let dx := e.max.x - e.min.x
        let dy := e.max.y - e.min.y
        let dz := e.max.z - e.min.z
        let radius := sqrtQ (dx * dx + dy * dy + dz * dz) / 2
        .orb (dotJoin pathname) (radius + saf)
  let tx := (e.max.x + e.min.x) / 2
  let ty := (e.max.y + e.min.y) / 2
  let tz := (e.max.z + e.min.z) / 2
  if tx = 0 ∧ ty = 0 ∧ tz = 0 then (solid, orphans)
  else (.displaced (dotJoin pathname) solid none ⟨tx, ty, tz⟩,
        orphans ++ [solid])

/-- The `subtract` lambda of `build_solids`: replace the table entry of the
first operand by a boolean subtraction of the two operands' solids, move the
replaced solid to the orphan list, and pick the relative transform from the
operands' local transforms (`t0 * t1.Inverse()` when both are non-trivial).
The source's `std::map::operator[]` default-inserts a null solid or an
identity transform on a missing key; every claim guarantees the keys are
present, and the embedding reads them with the same defaults. -/
def applySubtract (pathname : Path) (transforms : List (String × Affine))
    (st : St) (item : String × String) : St :=
  let path0 := pathname ++ [item.1]
  let path1 := pathname ++ [item.2]
  let solid0 := (afind st.solids path0).getD .null
  let solid1 := (afind st.solids path1).getD .null
  let t0 := (afind transforms item.1).getD Affine.idA
  let t1 := (afind transforms item.2).getD Affine.idA
  let boolean : Solid :=
    if t1.moved then
      if t0.moved then .subtraction item.1 solid0 solid1 (some (t0.mul t1.inv))
      else .subtraction item.1 solid0 solid1 (some t1.inv)
    else
      if t0.moved then .subtraction item.1 solid0 solid1 (some t0)
      else .subtraction item.1 solid0 solid1 none
  { st with solids := aset st.solids path0 boolean,
            orphans := st.orphans ++ [solid0] }

/-- The shape dispatch of `build_solids` (its final `switch`), building this
node's own solid; the envelope case consumes the daughters' solids. -/
def buildOwnSolid (alg : TSTAlgorithm) (i : VInfo) (pathname : Path)
    (childSolids : List (VInfo × Solid)) (st : St) : Option Solid × St :=
  match i.shape with
  | .box size =>
      (some (.box (dotJoin pathname) (size.x * cmU / 2) (size.y * cmU / 2)
        (size.z * cmU / 2)), st)
  | .cylinder radius thickness length sec0 sec1 =>
      let rmin := if thickness > 0 then radius - thickness else 0
      let phi0 := sec0 / 360 * twopiQ
      let dphi := (sec1 - sec0) / 360 * twopiQ
      (some (.tubs (dotJoin pathname) (rmin * cmU) (radius * cmU)
        (length * cmU / 2) phi0 dphi), st)
  | .envelope eshape safety =>
      let so := buildEnvelope pathname eshape safety childSolids st.orphans
      (some so.1, { st with orphans := so.2 })
  | .sphere radius thickness az0 az1 zen0 zen1 =>
      if thickness ≤ 0 ∧ az0 = 0 ∧ az1 = 360 ∧ zen0 = 0 ∧ zen1 = 180 then
        (some (.orb (dotJoin pathname) (radius * cmU)), st)
      else
        let rmin := if thickness > 0 then radius - thickness else 0
        let phi0 := az0 / 360 * twopiQ
        let dphi := (az1 - az0) / 360 * twopiQ
        let theta0 := zen0 / 180 * piQ
        let dtheta := (zen1 - zen0) / 180 * piQ
        (some (.sphere (dotJoin pathname) (radius * cmU) (rmin * cmU)
          phi0 dphi theta0 dtheta), st)
  | .tessellation facets => buildTessellation alg pathname facets st

mutual

/-- `build_solids`: build the children's solids depth first, apply the
declared overlap and subtraction pairs, then build this node's own solid and
store it in the table under the node's path; a null result with no recorded
error synthesizes `ValueError` `bad '<path>' volume (could not create
solid)`. -/
def buildSolids (alg : TSTAlgorithm) : Volume → Path → St → Option Solid × St
  | .node i cs, path, st =>
    let pathname := path ++ [i.name]
    match buildChildren alg cs pathname st with
    | (none, st1) => (none, st1)
    | (some daughters, st1) =>
      let transforms :=
        cs.foldl (fun acc c => aset acc c.name (localTransform c.info)) []
      let subtractions :=
        cs.flatMap (fun c => c.info.subtract.map (fun s => (c.name, s)))
      let st2 := (i.overlaps ++ subtractions).foldl
        (applySubtract pathname transforms) st1
      match buildOwnSolid alg i pathname ((cs.map Volume.info).zip daughters) st2 with
      | (none, st3) =>
          if st3.err.isSome then (none, st3)
          else (none, setErr st3 .valueError (badSolidMsg pathname))
      | (some solid, st3) =>
          (some solid, { st3 with solids := aset st3.solids pathname solid })

/-- The child loop of `build_solids`: any failure aborts immediately without
building the remaining siblings. -/
def buildChildren (alg : TSTAlgorithm) :
    List Volume → Path → St → Option (List Solid) × St
  | [], _, st => (some [], st)
  | c :: rest, pathname, st =>
    match buildSolids alg c pathname st with
    | (none, st1) => (none, st1)
    | (some s, st1) =>
      match buildChildren alg rest pathname st1 with
      | (none, st2) => (none, st2)
      | (some ds, st2) => (some (s :: ds), st2)

end

/-! ### The native volume graph

`G4LogicalVolume` / `G4PVPlacement` pairs, as created by `build_volumes` and
the `GeometryData` constructor.  A placement's name is its dotted path
(keyed here by the name sequence, see `Path`). -/

mutual

inductive LogV where
  | mk (name : Path) (solid : Solid) (material : String) (sens : Bool)
       (daughters : List PhysV)

inductive PhysV where
  | mk (name : Path) (rot : Option M3) (tl : V3) (lv : LogV)

end

def LogV.lname : LogV → Path
  | .mk n _ _ _ _ => n

def LogV.solid : LogV → Solid
  | .mk _ s _ _ _ => s

def LogV.material : LogV → String
  | .mk _ _ m _ _ => m

def LogV.daughters : LogV → List PhysV
  | .mk _ _ _ _ ds => ds

def PhysV.pname : PhysV → Path
  | .mk n _ _ _ => n

def PhysV.rotation : PhysV → Option M3
  | .mk _ r _ _ => r

def PhysV.translation : PhysV → V3
  | .mk _ _ t _ => t

def PhysV.lv : PhysV → LogV
  | .mk _ _ _ l => l

mutual

/-- Number of native placement nodes in the subtree of a placement. -/
def PhysV.countPV : PhysV → Nat
  | .mk _ _ _ l => 1 + LogV.countBelow l

/-- Number of native placement nodes hanging below a logical volume. -/
def LogV.countBelow : LogV → Nat
  | .mk _ _ _ _ ds => PhysV.countPVList ds

def PhysV.countPVList : List PhysV → Nat
  | [] => 0
  | d :: rest => PhysV.countPV d + PhysV.countPVList rest

end

mutual

/-- Preorder list of the placement names below a logical volume, in the
order `map_volumes` visits them. -/
def LogV.preNames : LogV → List Path
  | .mk _ _ _ _ ds => PhysV.preNamesList ds

def PhysV.preNamesList : List PhysV → List Path
  | [] => []
  | d :: rest => PhysV.preNamesOf d ++ PhysV.preNamesList rest

def PhysV.preNamesOf : PhysV → List Path
  | .mk n _ _ l => n :: LogV.preNames l

end

mutual

/-- The solids freed by `drop_them_all(G4LogicalVolume*)`: every daughter's
subtree first (in order), then this volume's own solid. -/
def LogV.freeList : LogV → List Solid
  | .mk _ s _ _ ds => PhysV.freeListL ds ++ [s]

def PhysV.freeListL : List PhysV → List Solid
  | [] => []
  | d :: rest => PhysV.freeList d ++ PhysV.freeListL rest

/-- The solids freed by `drop_them_all(const G4VPhysicalVolume*)`. -/
def PhysV.freeList : PhysV → List Solid
  | .mk _ _ _ l => LogV.freeList l

end

/-! ### Volume assembly (`build_volumes`) -/

mutual

/-- `build_volumes`: resolve the material, take (and erase) this node's
solid from the table, build the logical volume with an optional sensitive
detector, then place the children one by one; a child failure unwinds the
partially built subtree with `drop_them_all` before propagating.  On a
missing solid-table entry the source dereferences an end iterator (a
structural invariant violation); the embedding returns failure there. -/
def buildVolumes (mats : List String) : Volume → Path → St → Option LogV × St
  | .node i cs, path, st =>
    let pathname := path ++ [i.name]
    if i.material ∈ mats then
      match afind st.solids pathname with
      | none => (none, st)
      | some solid =>
        let st1 := { st with solids := aerase st.solids pathname }
        match placeDaughters mats cs pathname st1 with
        | (none, st2, placed) =>
            (none, { st2 with
              freed := st2.freed ++ PhysV.freeListL placed ++ [solid] })
        | (some daughters, st2, _) =>
            (some (.mk pathname solid i.material i.sensitive daughters), st2)
    else
      (none, setErr st .valueError (badMaterialMsg pathname i.material))

/-- The child loop of `build_volumes`: each child is built and immediately
placed (`G4PVPlacement` named with the child's path, carrying the child's
local rotation/translation).  The third component reports the placements
created before a failure, for the caller's unwinding. -/
def placeDaughters (mats : List String) :
    List Volume → Path → St → Option (List PhysV) × St × List PhysV
  | [], _, st => (some [], st, [])
  | c :: rest, pathname, st =>
    match buildVolumes mats c pathname st with
    | (none, st1) => (none, st1, [])
    | (some l, st1) =>
      let pv : PhysV := .mk (pathname ++ [c.name]) c.info.rotation
        (V3.smul cmU c.info.position) l
      match placeDaughters mats rest pathname st1 with
      | (none, st2, placedRest) => (none, st2, pv :: placedRest)
      | (some ds, st2, placed) => (some (pv :: ds), st2, pv :: placed)

end

/-! ### Index maps and the container (`map_volumes`, `GeometryData`) -/

mutual

/-- `map_volumes`: walk the graph recording, for every daughter, its path in
`elements` and its parent in `mothers`, then recurse. -/
def mapVolumes : PhysV → List (Path × PhysV) → List (Path × Option Path) →
    List (Path × PhysV) × List (Path × Option Path)
  | .mk n _ _ (.mk _ _ _ _ ds), els, mos => mapDaughters n ds els mos

def mapDaughters (selfPath : Path) :
    List PhysV → List (Path × PhysV) → List (Path × Option Path) →
    List (Path × PhysV) × List (Path × Option Path)
  | [], els, mos => (els, mos)
  | d :: rest, els, mos =>
    let els1 := aset els d.pname d
    let mos1 := aset mos d.pname (some selfPath)
    match mapVolumes d els1 mos1 with
    | (els2, mos2) => mapDaughters selfPath rest els2 mos2

end

/-- Outcome of the `GeometryData` constructor (plus the embedding's freed
ledger). -/
structure CtorOut where
  world : Option PhysV
  elements : List (Path × PhysV)
  mothers : List (Path × Option Path)
  orphans : List Solid
  freed : List Solid
  err : Option Err
  registered : Bool

/-- The `GeometryData` constructor: clear the error slot, build the solids
(on failure delete only the table entries and return unpopulated), displace
the top solid when the root is moved, build the volumes (on failure delete
the remaining table entries and the orphans), then create the root placement,
register it, and build the index maps. -/
def geometryCtor (mats : List String) (alg : TSTAlgorithm) (v : Volume) :
    CtorOut :=
  let st0 := St.empty
  match buildSolids alg v [] st0 with
  | (none, st1) =>
      { world := none, elements := [], mothers := [], orphans := st1.orphans,
        freed := st1.freed ++ avalues st1.solids, err := st1.err,
        registered := false }
  | (some topSolid, st1) =>
      let i := v.info
      let stD :=
        if i.isTranslated || i.isRotated then
          { st1 with
            orphans := st1.orphans ++ [topSolid],
            solids := aset st1.solids [i.name]
              (.displaced i.name topSolid i.rotation (V3.smul cmU i.position)) }
        else st1
      match buildVolumes mats v [] stD with
      | (none, st2) =>
          { world := none, elements := [], mothers := [], orphans := [],
            freed := st2.freed ++ avalues st2.solids ++ st2.orphans,
            err := st2.err, registered := false }
      | (some logical, st2) =>
          let world : PhysV := .mk [i.name] none V3.zero logical
          let els0 := aset ([] : List (Path × PhysV)) [i.name] world
          let mos0 := aset ([] : List (Path × Option Path)) [i.name] none
          let em := mapVolumes world els0 mos0
          { world := some world, elements := em.1, mothers := em.2,
            orphans := st2.orphans, freed := st2.freed, err := st2.err,
            registered := true }

/-- The populated geometry container seen through a `GeometryBorrow`. -/
structure Geometry where
  world : PhysV
  elements : List (Path × PhysV)
  mothers : List (Path × Option Path)
  orphans : List Solid

/-- Outcome of `create_geometry`: the handle (null on error), the recorded
error, and the embedding's ledgers — `orphans` are allocated orphan solids
never freed on the failure path, `freed` is everything deleted. -/
structure CreateOut where
  borrow : Option Geometry
  err : Option Err
  orphans : List Solid
  freed : List Solid
  registered : Bool

/-- `create_geometry`: run the constructor; on a recorded error `delete` the
container — whose destructor is a no-op when `world` is null, so the orphan
solids of a solid-phase failure are never freed. -/
def createGeometry (mats : List String) (alg : TSTAlgorithm) (v : Volume) :
    CreateOut :=
  let c := geometryCtor mats alg v
  if c.err.isSome then
    { borrow := none, err := c.err, orphans := c.orphans, freed := c.freed,
      registered := c.registered }
  else
    match c.world with
    | some w =>
        { borrow := some ⟨w, c.elements, c.mothers, c.orphans⟩, err := none,
          orphans := [], freed := c.freed, registered := c.registered }
    | none =>
        { borrow := none, err := none, orphans := c.orphans, freed := c.freed,
          registered := false }

/-! ### Transform / query subsystem -/

/-- The affine transform of one placement,
`G4AffineTransform(current->GetRotation(), current->GetTranslation())`. -/
def PhysV.placementAffine (pv : PhysV) : Affine :=
  Affine.ofRotTrans pv.rotation pv.translation

/-- Placement transform of the node at a path; the source keeps the node
pointers themselves while walking, which always resolve in a built
geometry. -/
def nodeAffine (g : Geometry) (p : Path) : Affine :=
  match afind g.elements p with
  | some pv => pv.placementAffine
  | none => Affine.idA

/-- The parent-chain walk of `compute_transform`: push the current node and
step to its mother until the frame is reached; a null mother yields
`ValueError` `'<frame>' does not contain '<volume>'`.  The fuel bounds the
walk; it never runs out when the mothers index is ancestry-shrinking, as in
every built geometry (the source just loops on the pointer chain). -/
def collectUp (g : Geometry) (frame vol : Path) :
    Nat → Path → Except Err (List Path)
  | 0, cur =>
    if cur = frame then .ok []
    else .error (notContainedErr frame vol)
  | fuel + 1, cur =>
    if cur = frame then .ok []
    else
      match (afind g.mothers cur).getD none with
      | none => .error (notContainedErr frame vol)
      | some parent =>
        match collectUp g frame vol fuel parent with
        | .error e => .error e
        | .ok l => .ok (cur :: l)

/-- `VolumeBorrow::compute_transform`: an empty frame resolves to the world's
name; `frame == volume` short-circuits to the identity; otherwise resolve the
frame in `elements` (`unknown volume` on a miss), walk the mothers chain, and
compose the collected placements' transforms in root-to-leaf order. -/
def computeTransform (g : Geometry) (pv : PhysV) (frame0 : Path) :
    Except Err Affine :=
  let frame := if frame0 = [] then g.world.pname else frame0
  if pv.pname = frame then .ok Affine.idA
  else
    match afind g.elements frame with
    | none => .error (unknownVolumeErr frame)
    | some _ =>
      match collectUp g frame pv.pname pv.pname.length pv.pname with
      | .error e => .error e
      | .ok vols =>
          .ok (vols.reverse.foldl (fun acc p => acc.mul (nodeAffine g p))
            Affine.idA)

/-- The box array `[xmin, xmax, ymin, ymax, zmin, zmax]` scaled from native
units to cm. -/
def scaleBox6 (b : AABB) : List Q :=
  [b.min.x / cmU, b.max.x / cmU, b.min.y / cmU, b.max.y / cmU,
   b.min.z / cmU, b.max.z / cmU]

/-- `VolumeBorrow::compute_box`: zeroed box alongside any transform error;
otherwise the solid's transformed extent when the transform is non-trivial,
its plain extent otherwise, scaled to cm. -/
def computeBox (g : Geometry) (pv : PhysV) (frame : Path) :
    List Q × Option Err :=
  match computeTransform g pv frame with
  | .error e => ([0, 0, 0, 0, 0, 0], some e)
  | .ok t =>
    let solid := pv.lv.solid
    let b := if t.isTranslated || t.isRotated then solid.calcExtent t
             else solid.extent
    (scaleBox6 b, none)

/-- `VolumeBorrow::compute_origin`: the transform applied to the local
origin, scaled to cm; zeroed alongside any transform error. -/
def computeOrigin (g : Geometry) (pv : PhysV) (frame : Path) :
    V3 × Option Err :=
  match computeTransform g pv frame with
  | .error e => (V3.zero, some e)
  | .ok t =>
    let p := t.transformPoint V3.zero
    (⟨p.x / cmU, p.y / cmU, p.z / cmU⟩, none)

/-- `VolumeBorrow::compute_volume`: the solid's cubic volume, minus the
direct daughters' cubic volumes when daughters are excluded, clamped below
at zero and scaled to cm3. -/
def computeVolume (pv : PhysV) (includeDaughters : Bool) : Q :=
  let vol0 := pv.lv.solid.cubicVolume
  let vol :=
    if includeDaughters then vol0
    else vol0 - (pv.lv.daughters.map (fun d => d.lv.solid.cubicVolume)).sum
  max vol 0 / cm3U

/-- The daughter loop of `VolumeBorrow::inside`: a point on a daughter's
surface downgrades to surface, strictly inside a daughter to outside;
otherwise continue, and a point in no daughter stays inside. -/
def insideDaughters : List PhysV → V3 → EInside
  | [], _ => .kInside
  | d :: rest, point =>
    let t := Affine.ofRotTrans d.rotation d.translation
    let ri := if t.isTranslated || t.isRotated then t.inverseTransformPoint point
              else point
    match d.lv.solid.insideP ri with
    | .kSurface => .kSurface
    | .kInside => .kOutside
    | .kOutside => insideDaughters rest point

/-- `VolumeBorrow::inside`: scale the point to native units, pull it back
through the supplied transform when non-trivial, and query the solid; the
daughter test runs only when `include_daughters` is false and the point is
strictly inside the parent. -/
def insideQ (pv : PhysV) (point0 : V3) (t : Affine)
    (includeDaughters : Bool) : EInside :=
  let point1 := V3.smul cmU point0
  let point := if t.isTranslated || t.isRotated
               then t.inverseTransformPoint point1 else point1
  let ins := pv.lv.solid.insideP point
  if includeDaughters || decide (ins ≠ EInside.kInside) then ins
  else insideDaughters pv.lv.daughters point

/-- `get_volume`: resolve a path in `elements`, recording `ValueError`
`unknown volume '<path>'` on a miss. -/
def getVolume (p : Path) (elements : List (Path × PhysV)) :
    Option PhysV × Option Err :=
  match afind elements p with
  | none => (none, some (unknownVolumeErr p))
  | some pv => (some pv, none)

/-- `GeometryBorrow::borrow_volume`: a null handle alongside the error when
the path is unknown, a lease-holding handle to the node otherwise. -/
def borrowVolume (g : Geometry) (p : Path) : Option PhysV × Option Err :=
  getVolume p g.elements

/-! ### Lifetime state machine (`clone` / `drop` / `~GeometryData`)

The state of one `GeometryData` container: the `rc` lease counter (a
`size_t`, kept modulo `2^64`), the owned graph and orphans, membership of
its root in the process-wide `INSTANCES` registry, and the embedding's
ledgers for what has been freed. -/

def size64 : Nat := 2 ^ 64

structure GeomLife where
  rc : Nat
  world : Option PhysV
  orphans : List Solid
  inRegistry : Bool
  freedSolids : List Solid
  containerFreed : Bool

/-- `GeometryData::clone`: increment the lease count and return self. -/
def GeomLife.clone (s : GeomLife) : GeomLife :=
  { s with rc := (s.rc + 1) % size64 }

/-- `~GeometryData`: when the world exists, erase the root from the
registry, recursively free the native subtree and the orphan solids. -/
def GeomLife.destructor (s : GeomLife) : GeomLife :=
  match s.world with
  | none => s
  | some w =>
      { s with inRegistry := false,
               freedSolids := s.freedSolids ++ PhysV.freeList w ++ s.orphans,
               orphans := [], world := none }

/-- `GeometryData::drop`: decrement the lease count; at zero, run the
destructor and free the container. -/
def GeomLife.drop (s : GeomLife) : GeomLife :=
  let r := (s.rc + (size64 - 1)) % size64
  if r = 0 then { s.destructor with rc := 0, containerFreed := true }
  else { s with rc := r }

/-! ### Well-formedness and counting of volume trees -/

mutual

def nodeCount : Volume → Nat
  | .node _ cs => 1 + nodeCountList cs

def nodeCountList : List Volume → Nat
  | [] => 0
  | c :: rest => nodeCount c + nodeCountList rest

end

mutual

/-- The dotted paths of all nodes of a tree under a prefix, in preorder. -/
def pathsOf : Volume → Path → List Path
  | .node i cs, path => (path ++ [i.name]) :: pathsOfList cs (path ++ [i.name])

def pathsOfList : List Volume → Path → List Path
  | [], _ => []
  | c :: rest, p => pathsOf c p ++ pathsOfList rest p

end

/-- Shape validity at one node: an envelope needs at least one child (the
external kernel rejects the degenerate box built from empty extents), a
tessellation needs accepted facets; the parametric shapes always build. -/
def shapeOk (i : VInfo) (cs : List Volume) : Bool :=
  match i.shape with
  | .envelope _ _ => !cs.isEmpty
  | .tessellation facets => facets.all Facet.ok
  | _ => true

mutual

/-- Well-formedness of a volume tree, as the claims put it: sibling names
unique, subtraction and overlap pairs referencing only direct children,
known materials, valid shapes — recursively. -/
def wf (mats : List String) : Volume → Bool
  | .node i cs =>
    decide (i.material ∈ mats) &&
    shapeOk i cs &&
    decide ((cs.map Volume.name).Nodup) &&
    i.overlaps.all (fun ab =>
      decide (ab.1 ∈ cs.map Volume.name) && decide (ab.2 ∈ cs.map Volume.name)) &&
    cs.all (fun c => c.info.subtract.all (fun s => decide (s ∈ cs.map Volume.name))) &&
    wfList mats cs

def wfList (mats : List String) : List Volume → Bool
  | [] => true
  | c :: rest => wf mats c && wfList mats rest

end

/-! ### Decidability helpers and geometry well-formedness -/

instance {α β : Type} [DecidableEq α] [DecidableEq β] : DecidableEq (Except α β)
  | .error a, .error b =>
    if h : a = b then .isTrue (congrArg Except.error h)
    else .isFalse fun hh => h (Except.error.inj hh)
  | .ok a, .ok b =>
    if h : a = b then .isTrue (congrArg Except.ok h)
    else .isFalse fun hh => h (Except.ok.inj hh)
  | .error _, .ok _ => .isFalse fun hh => Except.noConfusion hh
  | .ok _, .error _ => .isFalse fun hh => Except.noConfusion hh

/-- The mothers index is ancestry-shrinking: every parent path is strictly
shorter than its daughter's.  This holds for every geometry built by
`createGeometry` (a parent's path is the daughter's without its last name)
and is what makes the source's unbounded parent-chain walk terminate. -/
def mothersShrink (g : Geometry) : Bool :=
  g.mothers.all fun kv =>
    match kv.2 with
    | none => true
    | some p => decide (p.length < kv.1.length)

/-- The proper ancestors the mothers walk visits from a path (with the same
fuel discipline as `collectUp`). -/
def ancestors (g : Geometry) : Nat → Path → List Path
  | 0, _ => []
  | fuel + 1, cur =>
    match (afind g.mothers cur).getD none with
    | none => []
    | some p => p :: ancestors g fuel p

/-! ### Concrete scenarios -/

/-- A null placement, for total lookups in the concrete scenarios. -/
def pvDefault : PhysV := .mk [] none V3.zero (.mk [] .null "" false [])

def geoDefault : Geometry := ⟨pvDefault, [], [], []⟩

/-- The spec's box scenario: a world box of 10 cm sides containing a child
box of 2 cm sides at (3, 0, 0) cm, no rotation. -/
def scnTree : Volume :=
  .node ⟨"World", "Vacuum", .box ⟨10, 10, 10⟩, V3.zero, none, false, [], []⟩
    [.node ⟨"Child", "Vacuum", .box ⟨2, 2, 2⟩, ⟨3, 0, 0⟩, none, false, [], []⟩
      []]

def scnGeo : Geometry :=
  ((createGeometry ["Vacuum"] .geant4 scnTree).borrow).getD geoDefault

def scnChild : PhysV := (afind scnGeo.elements ["World", "Child"]).getD pvDefault

/-- A construction failure after a subtraction: the subtree `D` holds
children `A`, `B` with `A` subtracting `B` (orphaning `A`'s original solid),
and the later sibling `C` is a tessellation whose single degenerate facet the
external accumulator rejects. -/
def leakTree : Volume :=
  .node ⟨"P", "Vacuum", .box ⟨10, 10, 10⟩, V3.zero, none, false, [], []⟩
    [.node ⟨"D", "Vacuum", .box ⟨4, 4, 4⟩, V3.zero, none, false, [], []⟩
      [.node ⟨"A", "Vacuum", .box ⟨1, 1, 1⟩, V3.zero, none, false, ["B"], []⟩
        [],
       .node ⟨"B", "Vacuum", .box ⟨1, 1, 1⟩, ⟨1, 0, 0⟩, none, false, [], []⟩
        []],
     .node ⟨"C", "Vacuum",
        .tessellation [⟨V3.zero, V3.zero, V3.zero⟩], V3.zero, none, false,
        [], []⟩
      []]

def leakOut : CreateOut := createGeometry ["Vacuum"] .geant4 leakTree

/-- The solid of `P.D.A` that the subtraction patch moved to the orphan
list. -/
def leakOrphan : Solid := .box "P.D.A" 5 5 5

/-- Three nested translated boxes, for the transform-composition law. -/
def chainTree : Volume :=
  .node ⟨"A", "Vacuum", .box ⟨40, 40, 40⟩, V3.zero, none, false, [], []⟩
    [.node ⟨"B", "Vacuum", .box ⟨20, 20, 20⟩, ⟨5, 0, 0⟩, none, false, [], []⟩
      [.node ⟨"C", "Vacuum", .box ⟨4, 4, 4⟩, ⟨1, 2, 0⟩, none, false, [], []⟩
        []]]

def chainGeo : Geometry :=
  ((createGeometry ["Vacuum"] .geant4 chainTree).borrow).getD geoDefault

def chainB : PhysV := (afind chainGeo.elements ["A", "B"]).getD pvDefault

def chainC : PhysV := (afind chainGeo.elements ["A", "B", "C"]).getD pvDefault

/-- A world with two sibling boxes, for the frame-containment errors. -/
def sibTree : Volume :=
  .node ⟨"W", "Vacuum", .box ⟨10, 10, 10⟩, V3.zero, none, false, [], []⟩
    [.node ⟨"S1", "Vacuum", .box ⟨1, 1, 1⟩, ⟨-2, 0, 0⟩, none, false, [], []⟩
      [],
     .node ⟨"S2", "Vacuum", .box ⟨1, 1, 1⟩, ⟨2, 0, 0⟩, none, false, [], []⟩
      []]

def sibGeo : Geometry :=
  ((createGeometry ["Vacuum"] .geant4 sibTree).borrow).getD geoDefault

def sibS1 : PhysV := (afind sibGeo.elements ["W", "S1"]).getD pvDefault

/-- A freshly constructed, registered container about to be leased. -/
def lifeInit : GeomLife :=
  { rc := 0,
    world := some (.mk ["W"] none V3.zero (.mk ["W"] (.box "W" 5 5 5) "Vacuum"
      false [])),
    orphans := [.box "orphan" 1 1 1],
    inRegistry := true,
    freedSolids := [],
    containerFreed := false }

/-- Structural induction over the nested volume tree: a property holds for a
node once it holds for every child. -/
def Volume.strongInd {P : Volume → Prop}
    (h : ∀ i cs, (∀ c ∈ cs, P c) → P (.node i cs)) : ∀ v, P v
  | .node i cs => h i cs (fun c hc => Volume.strongInd h c)
termination_by v => sizeOf v
decreasing_by
  have := List.sizeOf_lt_of_mem hc
  simp only [Volume.node.sizeOf_spec]
  omega

/-- Structural induction over the built placement graph. -/
def PhysV.strongInd {P : PhysV → Prop}
    (h : ∀ n r t lv, (∀ d ∈ lv.daughters, P d) → P (.mk n r t lv)) :
    ∀ pv, P pv
  | .mk n r t lv => h n r t lv (fun d hd => PhysV.strongInd h d)
termination_by pv => sizeOf pv
decreasing_by
  cases lv with
  | mk ln s m sens ds =>
    simp only [LogV.daughters] at hd
    have := List.sizeOf_lt_of_mem hd
    simp only [PhysV.mk.sizeOf_spec, LogV.mk.sizeOf_spec]
    omega

/-! ## Theorems

Algebraic facts about the affine embedding, table lemmas, and the claims. -/

theorem M3.mul_one_right (a : M3) : a.mul M3.one = a := by
  cases a
  simp only [M3.mul, M3.one, M3.mk.injEq]
  and_intros <;> ring

theorem M3.one_mul_left (a : M3) : M3.one.mul a = a := by
  cases a
  simp only [M3.mul, M3.one, M3.mk.injEq]
  and_intros <;> ring

theorem M3.mul_assoc3 (a b c : M3) : (a.mul b).mul c = a.mul (b.mul c) := by
  cases a; cases b; cases c
  simp only [M3.mul, M3.mk.injEq]
  and_intros <;> ring

theorem V3.vecMul_one (p : V3) : p.vecMul M3.one = p := by
  cases p
  simp only [V3.vecMul, M3.one, V3.mk.injEq]
  and_intros <;> ring

theorem V3.add_zero_right (p : V3) : p.add V3.zero = p := by
  cases p
  simp only [V3.add, V3.zero, V3.mk.injEq]
  and_intros <;> ring

theorem V3.zero_vecMul (m : M3) : V3.zero.vecMul m = V3.zero := by
  cases m
  simp only [V3.vecMul, V3.zero, V3.mk.injEq]
  and_intros <;> ring

theorem V3.zero_add_left (p : V3) : V3.zero.add p = p := by
  cases p
  simp only [V3.add, V3.zero, V3.mk.injEq]
  and_intros <;> ring

theorem Affine.mul_idA_right (a : Affine) : a.mul Affine.idA = a := by
  cases a
  simp only [Affine.mul, Affine.idA, M3.mul_one_right, V3.vecMul_one,
    V3.add_zero_right]

theorem Affine.idA_mul_left (a : Affine) : Affine.idA.mul a = a := by
  cases a with
  | mk r t =>
    simp only [Affine.mul, Affine.idA, M3.one_mul_left, V3.zero_vecMul,
      V3.zero_add_left]

theorem Affine.mul_assocA (a b c : Affine) :
    (a.mul b).mul c = a.mul (b.mul c) := by
  cases a; cases b; cases c
  simp only [Affine.mul, Affine.mk.injEq, M3.mul_assoc3, true_and]
  rename_i ra ta rb tb rc tc
  cases ta; cases tb; cases tc; cases rb; cases rc
  simp only [V3.vecMul, V3.add, M3.mul, V3.mk.injEq]
  and_intros <;> ring

theorem Affine.inv_idA : Affine.idA.inv = Affine.idA := by decide

theorem Affine.eq_idA_of_not_moved (a : Affine) (h : a.moved = false) :
    a = Affine.idA := by
  cases a with
  | mk r t =>
    simp only [Affine.moved, Affine.isTranslated, Affine.isRotated,
      Bool.or_eq_false_iff, decide_eq_false_iff_not, not_not] at h
    simp [Affine.idA, h.1, h.2]

section TableLemmas

variable {α β : Type} [DecidableEq α]

theorem afind_aset_self (l : List (α × β)) (k : α) (v : β) :
    afind (aset l k v) k = some v := by
  induction l with
  | nil => simp [aset, afind]
  | cons kv rest ih =>
    by_cases h : kv.1 = k
    · simp [aset, afind, h]
    · cases kv
      simp only at h
      simp [aset, afind, h, ih]

theorem afind_aset_ne (l : List (α × β)) (k k' : α) (v : β) (h : k' ≠ k) :
    afind (aset l k v) k' = afind l k' := by
  have h' : ¬(k = k') := fun hh => h hh.symm
  induction l with
  | nil => simp [aset, afind, h']
  | cons kv rest ih =>
    cases kv with
    | mk k0 v0 =>
      by_cases h0 : k0 = k
      · subst h0
        simp [aset, afind, h']
      · simp [aset, afind, h0, ih]

theorem afind_isSome_aset (l : List (α × β)) (k k' : α) (v : β)
    (h : (afind l k').isSome = true) : (afind (aset l k v) k').isSome = true := by
  by_cases hk : k' = k
  · subst hk; simp [afind_aset_self]
  · rw [afind_aset_ne l k k' v hk]; exact h

theorem afind_aerase_ne (l : List (α × β)) (k k' : α) (h : k' ≠ k) :
    afind (aerase l k) k' = afind l k' := by
  have h' : ¬(k = k') := fun hh => h hh.symm
  induction l with
  | nil => simp [aerase, afind]
  | cons kv rest ih =>
    cases kv with
    | mk k0 v0 =>
      by_cases h0 : k0 = k
      · subst h0
        simp [aerase, afind, h']
      · simp [aerase, afind, h0, ih]

end TableLemmas

/-- C1: lifetime of a geometry container under leasing.  From a freshly
constructed, registered container, `N` clone calls raise the lease count to
`N`; each of the first `N - 1` drops only decrements it — the native graph,
the registry entry and the container survive untouched — and the `N`-th drop
removes the root from the registry, recursively frees the native subtree and
all orphan solids, and frees the container. -/
theorem c1_clone_drop_lease (s0 : GeomLife) (w : PhysV) (N k : Nat)
    (hrc : s0.rc = 0) (hw : s0.world = some w) (hreg : s0.inRegistry = true)
    (hcf : s0.containerFreed = false) (hfree : s0.freedSolids = [])
    (hN : 0 < N) (hN64 : N < size64) (hk : k < N) :
    ((GeomLife.drop^[k] (GeomLife.clone^[N] s0)).world = some w ∧
     (GeomLife.drop^[k] (GeomLife.clone^[N] s0)).inRegistry = true ∧
     (GeomLife.drop^[k] (GeomLife.clone^[N] s0)).freedSolids = [] ∧
     (GeomLife.drop^[k] (GeomLife.clone^[N] s0)).containerFreed = false ∧
     (GeomLife.drop^[k] (GeomLife.clone^[N] s0)).rc = N - k) ∧
    GeomLife.drop^[N] (GeomLife.clone^[N] s0) =
      { rc := 0, world := none, orphans := [], inRegistry := false,
        freedSolids := PhysV.freeList w ++ s0.orphans,
        containerFreed := true } := by
  have hclone : ∀ n, n < size64 → GeomLife.clone^[n] s0 = { s0 with rc := n } := by
    intro n
    induction n with
    | zero =>
      intro _
      cases s0
      simp only at hrc
      simp [hrc]
    | succ j ih =>
      intro hj
      rw [Function.iterate_succ_apply', ih (by omega)]
      cases s0
      simp only [GeomLife.clone]
      simp [Nat.mod_eq_of_lt hj]
  have hdec : ∀ x, 1 ≤ x → x < size64 → (x + (size64 - 1)) % size64 = x - 1 := by
    intro x h1 h2
    simp only [size64] at h2 ⊢
    omega
  have hdrop : ∀ j, j < N →
      GeomLife.drop^[j] { s0 with rc := N } = { s0 with rc := N - j } := by
    intro j
    induction j with
    | zero => intro _; simp
    | succ i ih =>
      intro hi
      rw [Function.iterate_succ_apply', ih (by omega)]
      show GeomLife.drop { s0 with rc := N - i } = _
      unfold GeomLife.drop
      simp only
      rw [hdec (N - i) (by omega) (by omega)]
      have hne : ¬(N - i - 1 = 0) := by omega
      rw [if_neg hne]
      have he : N - i - 1 = N - (i + 1) := by omega
      rw [he]
  constructor
  · rw [hclone N hN64, hdrop k hk]
    cases s0
    simp only at hrc hw hreg hcf hfree
    simp [hw, hreg, hcf, hfree]
  · have hsplit : ∀ s : GeomLife,
        GeomLife.drop^[N] s = GeomLife.drop (GeomLife.drop^[N - 1] s) := by
      intro s
      conv_lhs => rw [show N = (N - 1) + 1 from by omega]
      rw [Function.iterate_succ_apply']
    rw [hclone N hN64, hsplit, hdrop (N - 1) (by omega)]
    have h1 : N - (N - 1) = 1 := by omega
    rw [h1]
    unfold GeomLife.drop
    simp only
    rw [hdec 1 (by omega) (by simp only [size64]; omega)]
    simp only [if_pos rfl]
    unfold GeomLife.destructor
    cases s0
    simp only at hw hreg hcf hfree
    subst hw
    simp_all

/-- C1 witness: three leases on a concrete registered container require
exactly three drops; checked at `N = 3`, `k = 2`. -/
theorem c1_clone_drop_lease_witness :
    ((GeomLife.drop^[2] (GeomLife.clone^[3] lifeInit)).world =
        some (.mk ["W"] none V3.zero (.mk ["W"] (.box "W" 5 5 5) "Vacuum"
          false [])) ∧
     (GeomLife.drop^[2] (GeomLife.clone^[3] lifeInit)).inRegistry = true ∧
     (GeomLife.drop^[2] (GeomLife.clone^[3] lifeInit)).freedSolids = [] ∧
     (GeomLife.drop^[2] (GeomLife.clone^[3] lifeInit)).containerFreed = false ∧
     (GeomLife.drop^[2] (GeomLife.clone^[3] lifeInit)).rc = 3 - 2) ∧
    GeomLife.drop^[3] (GeomLife.clone^[3] lifeInit) =
      { rc := 0, world := none, orphans := [], inRegistry := false,
        freedSolids := PhysV.freeList (.mk ["W"] none V3.zero
          (.mk ["W"] (.box "W" 5 5 5) "Vacuum" false [])) ++ lifeInit.orphans,
        containerFreed := true } :=
  c1_clone_drop_lease lifeInit _ 3 2 rfl rfl rfl rfl rfl (by decide)
    (by simp only [size64]; omega) (by decide)

theorem Affine.idA_not_translated : Affine.idA.isTranslated = false := by decide

theorem Affine.idA_not_rotated : Affine.idA.isRotated = false := by decide

/-- C9: `compute_volume` never returns a negative value; with daughters
included it returns the solid's cubic volume, with daughters excluded the
solid's cubic volume minus the sum of the direct daughters' cubic volumes,
clamped below at zero, scaled to cm3.  The external kernel's cubic-volume
query is non-negative, which the included case uses. -/
theorem c9_compute_volume (pv : PhysV) (b : Bool)
    (hnn : 0 ≤ pv.lv.solid.cubicVolume) :
    0 ≤ computeVolume pv b ∧
    computeVolume pv true = pv.lv.solid.cubicVolume / cm3U ∧
    computeVolume pv false =
      max (pv.lv.solid.cubicVolume -
        ((pv.lv.daughters.map fun d => d.lv.solid.cubicVolume).sum)) 0
      / cm3U := by
  refine ⟨?_, ?_, ?_⟩
  · unfold computeVolume
    have h1 : (0 : Q) ≤ cm3U := by norm_num [cm3U]
    exact div_nonneg (le_max_right _ _) h1
  · unfold computeVolume
    simp only [if_pos rfl, Bool.true_eq_false, if_true]
    rw [max_eq_left hnn]
  · rfl

/-- C9 witness: the box scenario's world volume. -/
theorem c9_compute_volume_witness :
    0 ≤ scnGeo.world.lv.solid.cubicVolume ∧
    (0 ≤ computeVolume scnGeo.world false ∧
     computeVolume scnGeo.world true = scnGeo.world.lv.solid.cubicVolume / cm3U ∧
     computeVolume scnGeo.world false =
       max (scnGeo.world.lv.solid.cubicVolume -
         ((scnGeo.world.lv.daughters.map fun d => d.lv.solid.cubicVolume).sum)) 0
       / cm3U) :=
  ⟨by decide, c9_compute_volume scnGeo.world false (by decide)⟩

/-- C7: `compute_box(volume, volume)` equals the untransformed extent of the
volume's own solid scaled to cm, because the transform resolved for
`frame == volume` is the identity (names of built volumes are never
empty). -/
theorem c7_compute_box_self (g : Geometry) (pv : PhysV) (h : pv.pname ≠ []) :
    computeBox g pv pv.pname = (scaleBox6 pv.lv.solid.extent, none) ∧
    computeTransform g pv pv.pname = .ok Affine.idA := by
  have ht : computeTransform g pv pv.pname = .ok Affine.idA := by
    unfold computeTransform
    simp [h]
  refine ⟨?_, ht⟩
  unfold computeBox
  rw [ht]
  simp [Affine.idA_not_translated, Affine.idA_not_rotated]

/-- C7 witness: the child box of the box scenario. -/
theorem c7_compute_box_self_witness :
    scnChild.pname ≠ [] ∧
    (computeBox scnGeo scnChild scnChild.pname =
      (scaleBox6 scnChild.lv.solid.extent, none) ∧
     computeTransform scnGeo scnChild scnChild.pname = .ok Affine.idA) :=
  ⟨by decide, c7_compute_box_self scnGeo scnChild (by decide)⟩

/-- C10: an empty frame string resolves to the world volume, so
`compute_transform`, `compute_box` and `compute_origin` with an empty frame
behave exactly as with the root's path. -/
theorem c10_empty_frame_is_world (g : Geometry) (pv : PhysV) :
    computeTransform g pv [] = computeTransform g pv g.world.pname ∧
    computeBox g pv [] = computeBox g pv g.world.pname ∧
    computeOrigin g pv [] = computeOrigin g pv g.world.pname := by
  have ht : computeTransform g pv [] = computeTransform g pv g.world.pname := by
    unfold computeTransform
    simp
  exact ⟨ht, by unfold computeBox; rw [ht], by unfold computeOrigin; rw [ht]⟩

/-- C3 counterexample: in the box scenario, `inside([3,0,0], identity, true)`
on the world — daughters included — returns `kInside`, not the claimed
"outside": with `include_daughters == true` the source returns the parent
solid's own classification without ever testing the daughters. -/
theorem c3_counterexample_inside_true :
    insideQ scnGeo.world ⟨3, 0, 0⟩ Affine.idA true = EInside.kInside ∧
    insideQ scnGeo.world ⟨3, 0, 0⟩ Affine.idA true ≠ EInside.kOutside := by
  decide

/-- C3 (amended): in the scenario of a world box of 10 cm sides containing a
child box of 2 cm sides at (3,0,0) cm with no rotation, `compute_box(child,
world)` returns `[2,4,-1,1,-1,1]` cm, and `inside([3,0,0], identity, false)`
on the world — daughters excluded — returns "outside" because the point lies
strictly inside the daughter. -/
theorem c3_box_scenario :
    computeBox scnGeo scnChild ["World"] = ([2, 4, -1, 1, -1, 1], none) ∧
    insideQ scnGeo.world ⟨3, 0, 0⟩ Affine.idA false = EInside.kOutside := by
  decide

/-- C2: at the concrete `leakTree` input — a subtraction patch below `D`
followed by a failing tessellation sibling `C` — `create_geometry` fails
with the recorded error, registers nothing and returns a null handle, but
the orphan solid of the subtraction patch survives unfreed: the constructor's
solid-phase failure path deletes only the table entries, and the destructor
skips cleanup because `world` is null. -/
theorem c2_cleanup_leak_on_failure :
    leakOut.borrow.isNone = true ∧
    leakOut.err = some ⟨.valueError, badVerticesMsg ["P", "C"]⟩ ∧
    leakOut.registered = false ∧
    leakOut.orphans = [leakOrphan] ∧
    leakOrphan ∉ leakOut.freed := by
  decide

/-- C4: a declared subtraction pair replaces the solid-table entry of the
first operand with a boolean subtraction of the operands' solids, moves the
replaced solid to the orphan list, and — whenever either operand is
translated or rotated — the relative transform used equals
`t0 * t1.Inverse()` (the base operand's transform composed on the inverse of
the subtracted operand's). -/
theorem c4_subtraction_patch (pathname : Path)
    (transforms : List (String × Affine)) (st : St) (item : String × String)
    (s0 s1 : Solid) (t0 t1 : Affine)
    (h0 : afind st.solids (pathname ++ [item.1]) = some s0)
    (h1 : afind st.solids (pathname ++ [item.2]) = some s1)
    (ht0 : afind transforms item.1 = some t0)
    (ht1 : afind transforms item.2 = some t1)
    (hmoved : t0.moved = true ∨ t1.moved = true) :
    afind (applySubtract pathname transforms st item).solids
        (pathname ++ [item.1]) =
      some (.subtraction item.1 s0 s1 (some (t0.mul t1.inv))) ∧
    s0 ∈ (applySubtract pathname transforms st item).orphans := by
  unfold applySubtract
  simp only [h0, h1, ht0, ht1, Option.getD_some]
  constructor
  · cases hb1 : t1.moved with
    | true =>
      cases hb0 : t0.moved with
      | true => simp only [hb1, hb0, if_true]; exact afind_aset_self _ _ _
      | false =>
        have ht0id : t0 = Affine.idA := Affine.eq_idA_of_not_moved t0 hb0
        simp only [hb1, hb0, if_true, Bool.false_eq_true, if_false]
        rw [ht0id, Affine.idA_mul_left]
        exact afind_aset_self _ _ _
    | false =>
      cases hb0 : t0.moved with
      | true =>
        have ht1id : t1 = Affine.idA := Affine.eq_idA_of_not_moved t1 hb1
        simp only [hb1, hb0, Bool.false_eq_true, if_false, if_true]
        rw [ht1id, Affine.inv_idA, Affine.mul_idA_right]
        exact afind_aset_self _ _ _
      | false =>
        rcases hmoved with hm | hm
        · rw [hb0] at hm; exact absurd hm (by simp)
        · rw [hb1] at hm; exact absurd hm (by simp)
  · simp

/-- C4 witness: a concrete table with a translated subtracted operand. -/
theorem c4_subtraction_patch_witness :
    afind (⟨[(["P", "A"], .box "P.A" 5 5 5), (["P", "B"], .box "P.B" 1 1 1)],
        [], none, []⟩ : St).solids (["P"] ++ ["A"]) = some (.box "P.A" 5 5 5) ∧
    afind (⟨[(["P", "A"], .box "P.A" 5 5 5), (["P", "B"], .box "P.B" 1 1 1)],
        [], none, []⟩ : St).solids (["P"] ++ ["B"]) = some (.box "P.B" 1 1 1) ∧
    afind [("A", Affine.idA), ("B", (⟨M3.one, ⟨10, 0, 0⟩⟩ : Affine))] "A" =
      some Affine.idA ∧
    ((⟨M3.one, ⟨10, 0, 0⟩⟩ : Affine).moved = true) ∧
    (afind (applySubtract ["P"]
        [("A", Affine.idA), ("B", (⟨M3.one, ⟨10, 0, 0⟩⟩ : Affine))]
        ⟨[(["P", "A"], .box "P.A" 5 5 5), (["P", "B"], .box "P.B" 1 1 1)],
          [], none, []⟩ ("A", "B")).solids (["P"] ++ ["A"]) =
      some (.subtraction "A" (.box "P.A" 5 5 5) (.box "P.B" 1 1 1)
        (some (Affine.idA.mul (⟨M3.one, ⟨10, 0, 0⟩⟩ : Affine).inv))) ∧
     (Solid.box "P.A" 5 5 5) ∈ (applySubtract ["P"]
        [("A", Affine.idA), ("B", (⟨M3.one, ⟨10, 0, 0⟩⟩ : Affine))]
        ⟨[(["P", "A"], .box "P.A" 5 5 5), (["P", "B"], .box "P.B" 1 1 1)],
          [], none, []⟩ ("A", "B")).orphans) :=
  ⟨by decide, by decide, by decide, by decide,
   c4_subtraction_patch ["P"] _ _ ("A", "B") _ _ _ _ (by decide) (by decide)
     (by decide) (by decide) (Or.inr (by decide))⟩

theorem afind_mem {α β : Type} [DecidableEq α] (l : List (α × β)) (k : α)
    (v : β) (h : afind l k = some v) : (k, v) ∈ l := by
  induction l with
  | nil => simp [afind] at h
  | cons kv rest ih =>
    cases kv with
    | mk k0 v0 =>
      simp only [afind] at h
      by_cases h0 : k0 = k
      · rw [if_pos h0] at h
        cases h
        subst h0
        exact List.mem_cons_self _ _
      · rw [if_neg h0] at h
        exact List.mem_cons_of_mem _ (ih h)

theorem shrink_parent (g : Geometry) (hs : mothersShrink g = true)
    (cur p : Path) (h : (afind g.mothers cur).getD none = some p) :
    p.length < cur.length := by
  cases hfind : afind g.mothers cur with
  | none => rw [hfind] at h; simp at h
  | some v =>
    rw [hfind] at h
    simp only [Option.getD_some] at h
    subst h
    have hm := afind_mem g.mothers cur (some p) hfind
    have := (List.all_eq_true.mp hs) _ hm
    simpa using this

/-- `compute_transform` reads the borrow only through its node's name. -/
theorem computeTransform_congr_pname (g : Geometry) (pv pv' : PhysV)
    (frame : Path) (h : pv.pname = pv'.pname) :
    computeTransform g pv frame = computeTransform g pv' frame := by
  unfold computeTransform
  rw [h]

/-- An `ok` chain walk is independent of the fuel (given enough of it) and of
the volume name carried for error formatting. -/
theorem collectUp_ok_any (g : Geometry) (t vol vol' : Path) :
    ∀ fuel cur l, collectUp g t vol fuel cur = .ok l →
      ∀ fuel', l.length ≤ fuel' → collectUp g t vol' fuel' cur = .ok l := by
  intro fuel
  induction fuel with
  | zero =>
    intro cur l h fuel' _
    simp only [collectUp] at h
    by_cases hc : cur = t
    · rw [if_pos hc] at h
      cases h
      cases fuel' <;> simp [collectUp, hc]
    · rw [if_neg hc] at h
      cases h
  | succ f ih =>
    intro cur l h fuel' hlen
    simp only [collectUp] at h
    by_cases hc : cur = t
    · rw [if_pos hc] at h
      cases h
      cases fuel' <;> simp [collectUp, hc]
    · rw [if_neg hc] at h
      cases hm : (afind g.mothers cur).getD none with
      | none =>
        simp only [hm] at h
        exact Except.noConfusion h
      | some p =>
        simp only [hm] at h
        cases hrec : collectUp g t vol f p with
        | error e =>
          simp only [hrec] at h
          exact Except.noConfusion h
        | ok l' =>
          simp only [hrec, Except.ok.injEq] at h
          subst h
          have hl : l'.length + 1 ≤ fuel' := by
            simpa using hlen
          obtain ⟨f'', rfl⟩ : ∃ f'', fuel' = f'' + 1 :=
            ⟨fuel' - 1, by omega⟩
          simp only [collectUp, if_neg hc, hm, ih p l' hrec f'' (by omega)]

/-- Structure of an `ok` chain walk under an ancestry-shrinking mothers
index: the target lies weakly below the start, the chain is no longer than
the length gap, every collected node lies strictly below the target, the
chain is empty exactly when start and target coincide, and a non-empty
chain starts at the start node. -/
theorem collectUp_ok_facts (g : Geometry) (hs : mothersShrink g = true)
    (t vol : Path) :
    ∀ fuel cur l, collectUp g t vol fuel cur = .ok l →
      t.length ≤ cur.length ∧
      l.length + t.length ≤ cur.length ∧
      (∀ x ∈ l, t.length < x.length) ∧
      (l = [] ↔ cur = t) ∧
      (∀ y l', l = y :: l' → y = cur) := by
  intro fuel
  induction fuel with
  | zero =>
    intro cur l h
    simp only [collectUp] at h
    by_cases hc : cur = t
    · rw [if_pos hc] at h
      cases h
      subst hc
      refine ⟨le_refl _, by simp, by simp, by simp, by simp⟩
    · rw [if_neg hc] at h
      cases h
  | succ f ih =>
    intro cur l h
    simp only [collectUp] at h
    by_cases hc : cur = t
    · rw [if_pos hc] at h
      cases h
      subst hc
      refine ⟨le_refl _, by simp, by simp, by simp, by simp⟩
    · rw [if_neg hc] at h
      cases hm : (afind g.mothers cur).getD none with
      | none =>
        simp only [hm] at h
        exact Except.noConfusion h
      | some p =>
        simp only [hm] at h
        cases hrec : collectUp g t vol f p with
        | error e =>
          simp only [hrec] at h
          exact Except.noConfusion h
        | ok l' =>
          simp only [hrec, Except.ok.injEq] at h
          subst h
          have hp := shrink_parent g hs cur p hm
          obtain ⟨h1, h2, h3, _, _⟩ := ih p l' hrec
          refine ⟨by omega, by simp only [List.length_cons]; omega, ?_, ?_, ?_⟩
          · intro x hx
            rcases List.mem_cons.mp hx with rfl | hx'
            · omega
            · exact h3 x hx'
          · simp [hc]
          · intro y l'' hy
            cases hy
            rfl

/-- Chain walks concatenate: the walk from `c` to `b` followed by the walk
from `b` to `a` is the walk from `c` to `a`, for any sufficient fuel. -/
theorem collectUp_append (g : Geometry) (hs : mothersShrink g = true)
    (a b vol vol' vol'' : Path) (hab : a.length ≤ b.length) :
    ∀ fuel c lcb, collectUp g b vol fuel c = .ok lcb →
      ∀ fuel' lba, collectUp g a vol' fuel' b = .ok lba →
        ∀ fuel'', lcb.length + lba.length ≤ fuel'' →
          collectUp g a vol'' fuel'' c = .ok (lcb ++ lba) := by
  intro fuel
  induction fuel with
  | zero =>
    intro c lcb h fuel' lba h' fuel'' hf
    simp only [collectUp] at h
    by_cases hc : c = b
    · rw [if_pos hc] at h
      cases h
      subst hc
      simpa using collectUp_ok_any g a vol' vol'' fuel' c lba h' fuel''
        (by simpa using hf)
    · rw [if_neg hc] at h
      cases h
  | succ f ih =>
    intro c lcb h fuel' lba h' fuel'' hf
    simp only [collectUp] at h
    by_cases hc : c = b
    · rw [if_pos hc] at h
      cases h
      subst hc
      simpa using collectUp_ok_any g a vol' vol'' fuel' c lba h' fuel''
        (by simpa using hf)
    · rw [if_neg hc] at h
      cases hm : (afind g.mothers c).getD none with
      | none =>
        simp only [hm] at h
        exact Except.noConfusion h
      | some p =>
        simp only [hm] at h
        cases hrec : collectUp g b vol f p with
        | error e =>
          simp only [hrec] at h
          exact Except.noConfusion h
        | ok l' =>
          simp only [hrec, Except.ok.injEq] at h
          subst h
          have hcb : b.length < c.length := by
            have := (collectUp_ok_facts g hs b vol (f + 1) c (c :: l')
              (by simp only [collectUp, if_neg hc, hm, hrec])).2.2.1
            exact this c (List.mem_cons_self _ _)
          have hca : ¬(c = a) := by
            intro hh
            subst hh
            omega
          obtain ⟨f3, rfl⟩ : ∃ f3, fuel'' = f3 + 1 :=
            ⟨fuel'' - 1, by simp only [List.length_cons] at hf; omega⟩
          simp only [collectUp, if_neg hca, hm,
            ih p l' hrec fuel' lba h' f3
              (by simp only [List.length_cons] at hf; omega)]
          simp

/-- Folding the placement transforms from an accumulator equals the
accumulator times the fold from the identity. -/
theorem foldl_mul_shift (g : Geometry) (a : Affine) (xs : List Path) :
    xs.foldl (fun acc p => acc.mul (nodeAffine g p)) a =
      a.mul (xs.foldl (fun acc p => acc.mul (nodeAffine g p)) Affine.idA) := by
  induction xs generalizing a with
  | nil => simp [Affine.mul_idA_right]
  | cons x xs ih =>
    simp only [List.foldl_cons]
    rw [ih, ih (Affine.idA.mul (nodeAffine g x)), Affine.idA_mul_left,
      Affine.mul_assocA]

theorem foldl_mul_append (g : Geometry) (xs ys : List Path) :
    (xs ++ ys).foldl (fun acc p => acc.mul (nodeAffine g p)) Affine.idA =
      (xs.foldl (fun acc p => acc.mul (nodeAffine g p)) Affine.idA).mul
        (ys.foldl (fun acc p => acc.mul (nodeAffine g p)) Affine.idA) := by
  rw [List.foldl_append, foldl_mul_shift]

/-- C6: composition of resolved transforms.  For volumes `C` below `B` below
`A` (the two walks from `C` to `B` and from `B` to `A` both succeed over an
ancestry-shrinking mothers index), `resolve_transform(C, A)` equals the
composition of `resolve_transform(B, A)` and `resolve_transform(C, B)` — the
transform is the composition of the collected placements' local transforms in
root-to-leaf order — and `resolve_transform(X, X)` is the identity. -/
theorem c6_resolve_transform_composition (g : Geometry) (pvB pvC : PhysV)
    (pa : Path) (tCB tBA : Affine)
    (hs : mothersShrink g = true)
    (hB : pvB.pname ≠ []) (hA : pa ≠ [])
    (hCB : computeTransform g pvC pvB.pname = .ok tCB)
    (hBA : computeTransform g pvB pa = .ok tBA) :
    computeTransform g pvC pa = .ok (tBA.mul tCB) ∧
    (pvC.pname ≠ [] → computeTransform g pvC pvC.pname = .ok Affine.idA) := by
  constructor
  case right =>
    intro hne
    unfold computeTransform
    simp [hne]
  case left =>
    unfold computeTransform at hCB
    simp only [if_neg hB] at hCB
    by_cases hq1 : pvC.pname = pvB.pname
    · rw [if_pos hq1] at hCB
      cases hCB
      rw [computeTransform_congr_pname g pvC pvB pa hq1, hBA,
        Affine.mul_idA_right]
    · rw [if_neg hq1] at hCB
      cases hw1 : afind g.elements pvB.pname with
      | none =>
        simp only [hw1] at hCB
        exact Except.noConfusion hCB
      | some wB =>
        simp only [hw1] at hCB
        cases hcu1 : collectUp g pvB.pname pvC.pname pvC.pname.length
            pvC.pname with
        | error e =>
          simp only [hcu1] at hCB
          exact Except.noConfusion hCB
        | ok lCB =>
          simp only [hcu1, Except.ok.injEq] at hCB
          subst hCB
          have hCB' : computeTransform g pvC pvB.pname =
              .ok (lCB.reverse.foldl (fun acc p => acc.mul (nodeAffine g p))
                Affine.idA) := by
            unfold computeTransform
            simp only [if_neg hB, if_neg hq1, hw1, hcu1]
          unfold computeTransform at hBA
          simp only [if_neg hA] at hBA
          by_cases hq2 : pvB.pname = pa
          · rw [if_pos hq2] at hBA
            cases hBA
            rw [← hq2, hCB', Affine.idA_mul_left]
          · rw [if_neg hq2] at hBA
            cases hw2 : afind g.elements pa with
            | none =>
              simp only [hw2] at hBA
              exact Except.noConfusion hBA
            | some wA =>
              simp only [hw2] at hBA
              cases hcu2 : collectUp g pa pvB.pname pvB.pname.length
                  pvB.pname with
              | error e =>
                simp only [hcu2] at hBA
                exact Except.noConfusion hBA
              | ok lBA =>
                simp only [hcu2, Except.ok.injEq] at hBA
                subst hBA
                have f1 := collectUp_ok_facts g hs pvB.pname pvC.pname
                  pvC.pname.length pvC.pname lCB hcu1
                have f2 := collectUp_ok_facts g hs pa pvB.pname
                  pvB.pname.length pvB.pname lBA hcu2
                have hlba_ne : lBA ≠ [] := fun hh => hq2 (f2.2.2.2.1.mp hh)
                have hpaB : pa.length < pvB.pname.length := by
                  obtain ⟨y, l', rfl⟩ := List.exists_cons_of_ne_nil hlba_ne
                  have hy := f2.2.2.2.2 y l' rfl
                  have hlt := f2.2.2.1 y (List.mem_cons_self _ _)
                  rw [hy] at hlt
                  exact hlt
                have hCA : ¬(pvC.pname = pa) := by
                  intro hh
                  have h1 := f1.1
                  have h2 := congrArg List.length hh
                  omega
                have hf1 := f1.2.1
                have hf2 := f2.2.1
                have happ := collectUp_append g hs pa pvB.pname pvC.pname
                  pvB.pname pvC.pname (le_of_lt hpaB)
                  pvC.pname.length pvC.pname lCB hcu1
                  pvB.pname.length lBA hcu2
                  pvC.pname.length (by omega)
                unfold computeTransform
                simp only [if_neg hA, if_neg hCA, hw2, happ,
                  List.reverse_append, foldl_mul_append]

/-- C6 witness: the three-level chain of translated boxes; the composed
translations are (50,0,0) mm for B in A, (10,20,0) mm for C in B and their
composition (60,20,0) mm for C in A. -/
theorem c6_resolve_transform_composition_witness :
    computeTransform chainGeo chainC ["A"] =
      .ok ((⟨M3.one, ⟨50, 0, 0⟩⟩ : Affine).mul ⟨M3.one, ⟨10, 20, 0⟩⟩) ∧
    (chainC.pname ≠ [] →
      computeTransform chainGeo chainC chainC.pname = .ok Affine.idA) :=
  c6_resolve_transform_composition chainGeo chainB chainC ["A"]
    ⟨M3.one, ⟨10, 20, 0⟩⟩ ⟨M3.one, ⟨50, 0, 0⟩⟩ (by decide) (by decide)
    (by decide) (by decide) (by decide)

/-- The chain walk reports `'<frame>' does not contain '<volume>'` whenever
the frame is not among the start node's ancestors (over an
ancestry-shrinking mothers index the walk always reaches a node with no
recorded mother). -/
theorem collectUp_not_ancestor (g : Geometry) (hs : mothersShrink g = true)
    (t vol : Path) :
    ∀ fuel cur, cur.length ≤ fuel → cur ≠ t →
      t ∉ ancestors g fuel cur →
      collectUp g t vol fuel cur = .error (notContainedErr t vol) := by
  intro fuel
  induction fuel with
  | zero =>
    intro cur hlen hc _
    simp only [collectUp, if_neg hc]
  | succ f ih =>
    intro cur hlen hc hanc
    simp only [collectUp, if_neg hc]
    cases hm : (afind g.mothers cur).getD none with
    | none => simp
    | some p =>
      have hp := shrink_parent g hs cur p hm
      simp only [ancestors, hm, List.mem_cons, not_or] at hanc
      have hrec := ih p (by omega) (fun hh => hanc.1 hh.symm) hanc.2
      simp only [hrec]

/-- C8: queries with a bad path fail with `ValueError` and a neutral result:
an unknown path makes `borrow_volume` return a null handle with
`unknown volume '<path>'`; any `compute_transform` error makes `compute_box`
return the zeroed box and `compute_origin` return (0,0,0) alongside that
error; an unknown frame produces the `unknown volume` error; and a frame
that is not an ancestor of the volume produces
`'<frame>' does not contain '<volume>'`. -/
theorem c8_unknown_path_and_frame_errors (g : Geometry) (pv : PhysV)
    (p frame : Path) (e : Err) :
    (afind g.elements p = none →
      borrowVolume g p = (none, some (unknownVolumeErr p))) ∧
    (computeTransform g pv frame = .error e →
      computeBox g pv frame = ([0, 0, 0, 0, 0, 0], some e) ∧
      computeOrigin g pv frame = (V3.zero, some e)) ∧
    (frame ≠ [] → pv.pname ≠ frame → afind g.elements frame = none →
      computeTransform g pv frame = .error (unknownVolumeErr frame)) ∧
    (mothersShrink g = true → frame ≠ [] → pv.pname ≠ frame →
      (afind g.elements frame).isSome = true →
      frame ∉ ancestors g pv.pname.length pv.pname →
      computeTransform g pv frame = .error (notContainedErr frame pv.pname)) := by
  refine ⟨?_, ?_, ?_, ?_⟩
  · intro h
    unfold borrowVolume getVolume
    simp only [h]
  · intro h
    constructor
    · unfold computeBox
      simp only [h]
    · unfold computeOrigin
      simp only [h]
  · intro h1 h2 h3
    unfold computeTransform
    simp only [if_neg h1, if_neg h2, h3]
  · intro hs h1 h2 h4 h5
    unfold computeTransform
    simp only [if_neg h1, if_neg h2]
    obtain ⟨w, hw⟩ := Option.isSome_iff_exists.mp h4
    simp only [hw,
      collectUp_not_ancestor g hs frame pv.pname pv.pname.length pv.pname
        (le_refl _) h2 h5]

/-- C8 witness: an unknown volume path, an unknown frame on box/origin
queries, and a sibling frame that does not contain the volume. -/
theorem c8_unknown_path_and_frame_errors_witness :
    borrowVolume scnGeo ["nonexistent"] =
      (none, some (unknownVolumeErr ["nonexistent"])) ∧
    (computeBox scnGeo scnChild ["bad"] =
      ([0, 0, 0, 0, 0, 0], some (unknownVolumeErr ["bad"])) ∧
     computeOrigin scnGeo scnChild ["bad"] =
      (V3.zero, some (unknownVolumeErr ["bad"]))) ∧
    computeTransform scnGeo scnChild ["bad"] =
      .error (unknownVolumeErr ["bad"]) ∧
    computeTransform sibGeo sibS1 ["W", "S2"] =
      .error (notContainedErr ["W", "S2"] ["W", "S1"]) := by
  refine ⟨?_, ?_, ?_, ?_⟩
  · exact (c8_unknown_path_and_frame_errors scnGeo scnChild ["nonexistent"]
      ["bad"] (unknownVolumeErr ["bad"])).1 rfl
  · exact (c8_unknown_path_and_frame_errors scnGeo scnChild ["nonexistent"]
      ["bad"] (unknownVolumeErr ["bad"])).2.1 (by decide)
  · exact (c8_unknown_path_and_frame_errors scnGeo scnChild ["nonexistent"]
      ["bad"] (unknownVolumeErr ["bad"])).2.2.1 (by decide) (by decide) rfl
  · exact (c8_unknown_path_and_frame_errors sibGeo sibS1 ["nonexistent"]
      ["W", "S2"] (unknownVolumeErr ["bad"])).2.2.2 (by decide) (by decide)
      (by decide) (by decide) (by decide)

theorem wfList_iff (mats : List String) (cs : List Volume) :
    wfList mats cs = true ↔ ∀ c ∈ cs, wf mats c = true := by
  induction cs with
  | nil => simp [wfList]
  | cons c rest ih => simp [wfList, Bool.and_eq_true, ih]

/-- Unpacking of the node-level well-formedness conjunction. -/
theorem wf_parts (mats : List String) (i : VInfo) (cs : List Volume)
    (h : wf mats (.node i cs) = true) :
    i.material ∈ mats ∧ shapeOk i cs = true ∧
    (cs.map Volume.name).Nodup ∧
    (∀ ab ∈ i.overlaps, ab.1 ∈ cs.map Volume.name ∧ ab.2 ∈ cs.map Volume.name) ∧
    (∀ c ∈ cs, ∀ s ∈ c.info.subtract, s ∈ cs.map Volume.name) ∧
    (∀ c ∈ cs, wf mats c = true) := by
  simp only [wf, Bool.and_eq_true, decide_eq_true_eq, List.all_eq_true] at h
  obtain ⟨⟨⟨⟨⟨h1, h2⟩, h3⟩, h4⟩, h5⟩, h6⟩ := h
  refine ⟨h1, h2, h3, ?_, ?_, (wfList_iff mats cs).mp h6⟩
  · intro ab hab
    have := h4 ab hab
    simp only [Bool.and_eq_true, decide_eq_true_eq] at this
    exact this
  · intro c hc s hs
    have := h5 c hc
    simp only [List.all_eq_true, decide_eq_true_eq] at this
    exact this s hs

theorem pathsOfList_mem_iff (cs : List Volume) (q : Path) (k : Path) :
    k ∈ pathsOfList cs q ↔ ∃ c ∈ cs, k ∈ pathsOf c q := by
  induction cs with
  | nil => simp [pathsOfList]
  | cons c rest ih =>
    simp only [pathsOfList, List.mem_append, ih, List.mem_cons]
    constructor
    · rintro (h | ⟨c', hc', hk⟩)
      · exact ⟨c, Or.inl rfl, h⟩
      · exact ⟨c', Or.inr hc', hk⟩
    · rintro ⟨c', hc' | hc', hk⟩
      · subst hc'; exact Or.inl hk
      · exact Or.inr ⟨c', hc', hk⟩

/-- Every path of a subtree extends the subtree root's path. -/
theorem mem_pathsOf_shape :
    ∀ v : Volume, ∀ q k, k ∈ pathsOf v q → ∃ t, k = q ++ [v.name] ++ t := by
  intro v
  induction v using Volume.strongInd with
  | _ i cs ih =>
    intro q k hk
    simp only [pathsOf, List.mem_cons] at hk
    rcases hk with rfl | hk
    · exact ⟨[], by simp [Volume.name, Volume.info]⟩
    · obtain ⟨c, hc, hkc⟩ := (pathsOfList_mem_iff cs _ k).mp hk
      obtain ⟨t, rfl⟩ := ih c hc _ k hkc
      exact ⟨[c.name] ++ t, by simp [Volume.name, Volume.info]⟩

/-- The subtree root's path is among the subtree's paths. -/
theorem head_mem_pathsOf (v : Volume) (q : Path) :
    q ++ [v.name] ∈ pathsOf v q := by
  cases v with
  | node i cs => simp [pathsOf, Volume.name, Volume.info]

/-- Subtrees of distinctly named siblings have disjoint path sets. -/
theorem pathsOf_disjoint (c1 c2 : Volume) (q : Path)
    (h : c1.name ≠ c2.name) :
    ∀ k, k ∈ pathsOf c1 q → k ∉ pathsOf c2 q := by
  intro k h1 h2
  obtain ⟨t1, ht1⟩ := mem_pathsOf_shape c1 q k h1
  obtain ⟨t2, ht2⟩ := mem_pathsOf_shape c2 q k h2
  rw [ht1] at ht2
  simp only [List.append_assoc, List.append_cancel_left_eq,
    List.cons_append, List.nil_append, List.cons.injEq] at ht2
  exact h ht2.1

/-- A named child's root path is among the children's paths. -/
theorem name_mem_pathsOfList (cs : List Volume) (q : Path) (n : String)
    (h : n ∈ cs.map Volume.name) : q ++ [n] ∈ pathsOfList cs q := by
  obtain ⟨c, hc, rfl⟩ := List.mem_map.mp h
  exact (pathsOfList_mem_iff cs q _).mpr ⟨c, hc, head_mem_pathsOf c q⟩

theorem pathsOf_length :
    ∀ v : Volume, ∀ q, (pathsOf v q).length = nodeCount v := by
  intro v
  induction v using Volume.strongInd with
  | _ i cs ih =>
    intro q
    have inner : ∀ cs' : List Volume,
        (∀ c ∈ cs', ∀ q', (pathsOf c q').length = nodeCount c) →
        ∀ q', (pathsOfList cs' q').length = nodeCountList cs' := by
      intro cs'
      induction cs' with
      | nil => intro _ q'; simp [pathsOfList, nodeCountList]
      | cons c rest ihr =>
        intro hall q'
        simp [pathsOfList, nodeCountList, List.length_append,
          hall c (by simp), ihr (fun c' hc' => hall c' (by simp [hc'])) q']
    simp [pathsOf, nodeCount, inner cs ih (q ++ [i.name])]
    omega

/-- Unique sibling names make the path list duplicate-free. -/
theorem pathsOf_nodup (mats : List String) :
    ∀ v : Volume, wf mats v = true → ∀ q, (pathsOf v q).Nodup := by
  intro v
  induction v using Volume.strongInd with
  | _ i cs ih =>
    intro hwf q
    obtain ⟨_, _, hnames, _, _, hwfc⟩ := wf_parts mats i cs hwf
    have inner : ∀ cs' : List Volume,
        (cs'.map Volume.name).Nodup →
        (∀ c ∈ cs', wf mats c = true) →
        (∀ c ∈ cs', ∀ q', (pathsOf c q').Nodup) →
        ∀ q', (pathsOfList cs' q').Nodup := by
      intro cs'
      induction cs' with
      | nil => intro _ _ _ q'; simp [pathsOfList]
      | cons c rest ihr =>
        intro hnd hwfs hnod q'
        simp only [pathsOfList, List.nodup_append]
        refine ⟨hnod c (by simp) q', ?_, ?_⟩
        · exact ihr (by simpa using (List.nodup_cons.mp hnd).2)
            (fun c' hc' => hwfs c' (by simp [hc']))
            (fun c' hc' => hnod c' (by simp [hc'])) q'
        · intro k hk hk'
          obtain ⟨c', hc', hkc'⟩ := (pathsOfList_mem_iff rest q' k).mp hk'
          have hne : c.name ≠ c'.name := by
            intro hh
            exact (List.nodup_cons.mp hnd).1
              (hh ▸ List.mem_map.mpr ⟨c', hc', rfl⟩)
          exact pathsOf_disjoint c c' q' hne k hk hkc'
    simp only [pathsOf, List.nodup_cons]
    constructor
    · intro hmem
      obtain ⟨c, hc, hkc⟩ := (pathsOfList_mem_iff cs _ _).mp hmem
      obtain ⟨t, ht⟩ := mem_pathsOf_shape c (q ++ [i.name]) _ hkc
      have := congrArg List.length ht
      simp only [List.length_append, List.length_cons, List.length_nil] at this
      omega
    · exact inner cs hnames hwfc (fun c hc => ih c hc (hwfc c hc)) _

/-- One subtraction patch leaves the error slot alone, only strengthens key
presence, and rewrites no key other than the first operand's path. -/
theorem applySubtract_solids (pathname : Path)
    (transforms : List (String × Affine)) (st : St) (item : String × String) :
    (applySubtract pathname transforms st item).err = st.err ∧
    (∀ k, (afind st.solids k).isSome = true →
      (afind (applySubtract pathname transforms st item).solids k).isSome = true) ∧
    ∀ k, k ≠ pathname ++ [item.1] →
      afind (applySubtract pathname transforms st item).solids k =
        afind st.solids k := by
  refine ⟨rfl, ?_, ?_⟩
  · intro k hk
    exact afind_isSome_aset _ _ _ _ hk
  · intro k hk
    exact afind_aset_ne _ _ _ _ hk

/-- Folding subtraction patches whose target keys stay inside a key set
preserves the error slot, key presence, and all keys outside the set. -/
theorem applySubtract_foldl (pathname : Path)
    (transforms : List (String × Affine)) (kp : List Path) :
    ∀ items : List (String × String), ∀ st : St,
      (∀ it ∈ items, pathname ++ [it.1] ∈ kp) →
      (items.foldl (applySubtract pathname transforms) st).err = st.err ∧
      (∀ k, (afind st.solids k).isSome = true →
        (afind (items.foldl (applySubtract pathname transforms) st).solids
          k).isSome = true) ∧
      ∀ k, k ∉ kp →
        afind (items.foldl (applySubtract pathname transforms) st).solids k =
          afind st.solids k := by
  intro items
  induction items with
  | nil => intro st _; exact ⟨rfl, fun _ hk => hk, fun _ _ => rfl⟩
  | cons it rest ih =>
    intro st hmem
    simp only [List.foldl_cons]
    obtain ⟨e1, s1, u1⟩ := applySubtract_solids pathname transforms st it
    obtain ⟨e2, s2, u2⟩ := ih (applySubtract pathname transforms st it)
      (fun it' h => hmem it' (by simp [h]))
    refine ⟨e2.trans e1, fun k hk => s2 k (s1 k hk), fun k hk => ?_⟩
    rw [u2 k hk, u1 k (fun hh => hk (hh ▸ hmem it (by simp)))]

/-- The shape dispatch always yields a solid for a valid shape and touches
neither the solid table nor the error slot. -/
theorem buildOwnSolid_ok (alg : TSTAlgorithm) (i : VInfo) (pathname : Path)
    (chs : List (VInfo × Solid)) (st : St) (cs : List Volume)
    (hshape : shapeOk i cs = true) :
    ∃ s' st', buildOwnSolid alg i pathname chs st = (some s', st') ∧
      st'.solids = st.solids ∧ st'.err = st.err := by
  obtain ⟨nm, mat, shp, pos, rot, sens, sub, ov⟩ := i
  cases shp with
  | box size => exact ⟨_, _, rfl, rfl, rfl⟩
  | cylinder radius thickness length sec0 sec1 => exact ⟨_, _, rfl, rfl, rfl⟩
  | envelope eshape safety => exact ⟨_, _, rfl, rfl, rfl⟩
  | sphere radius thickness az0 az1 zen0 zen1 =>
    by_cases hc : thickness ≤ 0 ∧ az0 = 0 ∧ az1 = 360 ∧ zen0 = 0 ∧ zen1 = 180
    · exact ⟨_, _, if_pos hc, rfl, rfl⟩
    · exact ⟨_, _, if_neg hc, rfl, rfl⟩
  | tessellation facets =>
    cases alg with
    | bvh => exact ⟨_, _, rfl, rfl, rfl⟩
    | geant4 =>
      have hok : facets.all Facet.ok = true := by
        simpa [shapeOk] using hshape
      exact ⟨_, _, if_pos hok, rfl, rfl⟩

/-- The child loop of `build_solids` under well-formed children: every child
builds, the error slot is untouched, every child-subtree path gets a table
entry, and no other key changes. -/
theorem buildChildren_ok (mats : List String) (alg : TSTAlgorithm) :
    ∀ cs : List Volume,
      (∀ c ∈ cs, wf mats c = true) →
      (∀ c ∈ cs, wf mats c = true → ∀ path st, ∃ s st',
          buildSolids alg c path st = (some s, st') ∧ st'.err = st.err ∧
          (∀ k ∈ pathsOf c path, (afind st'.solids k).isSome = true) ∧
          (∀ k, k ∉ pathsOf c path →
            afind st'.solids k = afind st.solids k)) →
      (cs.map Volume.name).Nodup →
      ∀ pname st, ∃ ds st1,
        buildChildren alg cs pname st = (some ds, st1) ∧
        st1.err = st.err ∧
        (∀ k ∈ pathsOfList cs pname, (afind st1.solids k).isSome = true) ∧
        (∀ k, k ∉ pathsOfList cs pname →
          afind st1.solids k = afind st.solids k) := by
  intro cs
  induction cs with
  | nil =>
    intro _ _ _ pname st
    exact ⟨[], st, by simp [buildChildren], rfl, by simp [pathsOfList],
      fun _ _ => rfl⟩
  | cons c rest ih =>
    intro hwfs hbuild hnd pname st
    obtain ⟨s, st1, h1, he1, hp1, hu1⟩ :=
      hbuild c (by simp) (hwfs c (by simp)) pname st
    obtain ⟨ds, st2, h2, he2, hp2, hu2⟩ := ih
      (fun c' hc' => hwfs c' (by simp [hc']))
      (fun c' hc' => hbuild c' (by simp [hc']))
      ((List.nodup_cons.mp hnd).2) pname st1
    refine ⟨s :: ds, st2, ?_, he2.trans he1, ?_, ?_⟩
    · simp only [buildChildren, h1, h2]
    · intro k hk
      rcases List.mem_append.mp hk with hkc | hkr
      · have hkout : k ∉ pathsOfList rest pname := by
          intro hk'
          obtain ⟨c', hc', hkc'⟩ := (pathsOfList_mem_iff rest pname k).mp hk'
          have hne : c.name ≠ c'.name := by
            intro hh
            exact (List.nodup_cons.mp hnd).1
              (hh ▸ List.mem_map.mpr ⟨c', hc', rfl⟩)
          exact pathsOf_disjoint c c' pname hne k hkc hkc'
        rw [hu2 k hkout]
        exact hp1 k hkc
      · exact hp2 k hkr
    · intro k hk
      simp only [pathsOfList, List.mem_append, not_or] at hk
      rw [hu2 k hk.2, hu1 k hk.1]

/-- `build_solids` on a well-formed tree: it succeeds, leaves the error slot
alone, creates exactly the subtree's path entries and rewrites no other
key. -/
theorem buildSolids_ok (mats : List String) (alg : TSTAlgorithm) :
    ∀ v : Volume, wf mats v = true → ∀ path st, ∃ s st',
      buildSolids alg v path st = (some s, st') ∧ st'.err = st.err ∧
      (∀ k ∈ pathsOf v path, (afind st'.solids k).isSome = true) ∧
      (∀ k, k ∉ pathsOf v path →
        afind st'.solids k = afind st.solids k) := by
  intro v
  induction v using Volume.strongInd with
  | _ i cs ih =>
    intro hwf path st
    obtain ⟨hm, hsh, hnames, hov, hsub, hwfc⟩ := wf_parts mats i cs hwf
    obtain ⟨ds, st1, hbc, he1, hp1, hu1⟩ := buildChildren_ok mats alg cs hwfc
      (fun c hc _ => ih c hc (hwfc c hc)) hnames (path ++ [i.name]) st
    have hitems : ∀ it ∈ i.overlaps ++
        cs.flatMap (fun c => c.info.subtract.map (fun s => (c.name, s))),
        (path ++ [i.name]) ++ [it.1] ∈ pathsOfList cs (path ++ [i.name]) := by
      intro it hit
      rcases List.mem_append.mp hit with ho | hs
      · exact name_mem_pathsOfList cs _ it.1 (hov it ho).1
      · obtain ⟨c, hc, hmap⟩ := List.mem_flatMap.mp hs
        obtain ⟨snm, hsnm, rfl⟩ := List.mem_map.mp hmap
        exact name_mem_pathsOfList cs _ c.name (List.mem_map.mpr ⟨c, hc, rfl⟩)
    obtain ⟨he2, hp2, hu2⟩ := applySubtract_foldl (path ++ [i.name])
      (cs.foldl (fun acc c => aset acc c.name (localTransform c.info)) [])
      (pathsOfList cs (path ++ [i.name]))
      (i.overlaps ++
        cs.flatMap (fun c => c.info.subtract.map (fun s => (c.name, s))))
      st1 hitems
    obtain ⟨own, st3, hbo, hsol3, herr3⟩ := buildOwnSolid_ok alg i
      (path ++ [i.name]) ((cs.map Volume.info).zip ds)
      ((i.overlaps ++
        cs.flatMap (fun c => c.info.subtract.map (fun s => (c.name, s)))).foldl
          (applySubtract (path ++ [i.name])
            (cs.foldl (fun acc c => aset acc c.name (localTransform c.info)) []))
          st1)
      cs hsh
    refine ⟨own, { st3 with solids := aset st3.solids (path ++ [i.name]) own },
      ?_, ?_, ?_, ?_⟩
    · simp only [buildSolids, hbc, hbo]
    · simpa using herr3.trans (he2.trans he1)
    · intro k hk
      simp only [pathsOf, List.mem_cons] at hk
      rcases hk with rfl | hk
      · simp [afind_aset_self]
      · simp only
        refine afind_isSome_aset _ _ _ _ ?_
        rw [hsol3]
        exact hp2 k (hp1 k hk)
    · intro k hk
      simp only [pathsOf, List.mem_cons, not_or] at hk
      simp only
      rw [afind_aset_ne _ _ _ _ hk.1, hsol3, hu2 k hk.2, hu1 k hk.2]

/-- Unfolding of `pathsOf` through the node accessors. -/
theorem pathsOf_eq (v : Volume) (q : Path) :
    pathsOf v q = (q ++ [v.name]) :: pathsOfList v.children (q ++ [v.name]) := by
  cases v with
  | node i cs => rfl

/-- Assigning a fresh key appends it to the key list. -/
theorem akeys_aset_not_mem {α β : Type} [DecidableEq α] (l : List (α × β))
    (k : α) (v : β) (h : k ∉ akeys l) : akeys (aset l k v) = akeys l ++ [k] := by
  induction l with
  | nil => simp [aset, akeys]
  | cons kv rest ih =>
    cases kv with
    | mk k0 v0 =>
      have h1 : ¬(k = k0) ∧ k ∉ akeys rest := by
        simpa [akeys, not_or] using h
      have hne : ¬(k0 = k) := fun hh => h1.1 hh.symm
      simp only [aset, if_neg hne]
      show k0 :: akeys (aset rest k v) = (k0 :: akeys rest) ++ [k]
      rw [ih h1.2]
      rfl

/-- Unfolding of the preorder name list through the accessors. -/
theorem preNamesOf_eq (d : PhysV) :
    PhysV.preNamesOf d = PhysV.pname d :: LogV.preNames (PhysV.lv d) := by
  cases d with
  | mk n r t l => rfl

/-- The preorder name list of a placement counts its subtree's nodes. -/
theorem preNamesOf_length : ∀ d : PhysV,
    (PhysV.preNamesOf d).length = PhysV.countPV d := by
  intro d
  induction d using PhysV.strongInd with
  | _ n r t lv ih =>
    cases lv with
    | mk ln s m sens ds =>
      simp only [LogV.daughters] at ih
      have inner : ∀ ds' : List PhysV,
          (∀ d' ∈ ds', (PhysV.preNamesOf d').length = PhysV.countPV d') →
          (PhysV.preNamesList ds').length = PhysV.countPVList ds' := by
        intro ds'
        induction ds' with
        | nil => intro _; rfl
        | cons d' rest ihr =>
          intro hall
          simp [PhysV.preNamesList, PhysV.countPVList, List.length_append,
            hall d' (by simp), ihr (fun x hx => hall x (by simp [hx]))]
      simp only [PhysV.preNamesOf, PhysV.countPV, LogV.preNames,
        LogV.countBelow, List.length_cons, inner ds ih]
      omega

theorem preNamesList_length (ds : List PhysV) :
    (PhysV.preNamesList ds).length = PhysV.countPVList ds := by
  induction ds with
  | nil => rfl
  | cons d rest ih =>
    simp [PhysV.preNamesList, PhysV.countPVList, preNamesOf_length, ih]

theorem preNames_length (l : LogV) :
    (LogV.preNames l).length = LogV.countBelow l := by
  cases l with
  | mk n s m sens ds =>
    simp [LogV.preNames, LogV.countBelow, preNamesList_length]

/-- `map_volumes` extends the path index by exactly the preorder paths of
the placements below the visited node, provided those paths are fresh and
duplicate-free. -/
theorem mapVolumes_keys : ∀ pv : PhysV, ∀ els mos,
    (LogV.preNames (PhysV.lv pv)).Nodup →
    (∀ k ∈ LogV.preNames (PhysV.lv pv), k ∉ akeys els) →
    akeys (mapVolumes pv els mos).1 =
      akeys els ++ LogV.preNames (PhysV.lv pv) := by
  intro pv
  induction pv using PhysV.strongInd with
  | _ n r t lv ih =>
    cases lv with
    | mk ln s m sens ds =>
      simp only [LogV.daughters] at ih
      intro els mos hnd hfresh
      simp only [PhysV.lv, LogV.preNames] at hnd hfresh ⊢
      have inner : ∀ ds' : List PhysV,
          (∀ d ∈ ds', ∀ els' mos',
            (LogV.preNames (PhysV.lv d)).Nodup →
            (∀ k ∈ LogV.preNames (PhysV.lv d), k ∉ akeys els') →
            akeys (mapVolumes d els' mos').1 =
              akeys els' ++ LogV.preNames (PhysV.lv d)) →
          ∀ sp els' mos',
            (PhysV.preNamesList ds').Nodup →
            (∀ k ∈ PhysV.preNamesList ds', k ∉ akeys els') →
            akeys (mapDaughters sp ds' els' mos').1 =
              akeys els' ++ PhysV.preNamesList ds' := by
        intro ds'
        induction ds' with
        | nil =>
          intro _ sp els' mos' _ _
          simp [mapDaughters, PhysV.preNamesList]
        | cons d rest ihr =>
          intro hall sp els' mos' hnd' hfresh'
          simp only [PhysV.preNamesList] at hnd' hfresh' ⊢
          rcases List.nodup_append.mp hnd' with ⟨hnd1, hnd2, hdisj⟩
          rw [preNamesOf_eq] at hnd1
          rcases List.nodup_cons.mp hnd1 with ⟨hd1, hnd1'⟩
          have hfree_d : PhysV.pname d ∉ akeys els' :=
            hfresh' (PhysV.pname d) (by simp [preNamesOf_eq])
          have hk1 : akeys (aset els' (PhysV.pname d) d) =
              akeys els' ++ [PhysV.pname d] :=
            akeys_aset_not_mem els' (PhysV.pname d) d hfree_d
          have hfresh1 : ∀ k ∈ LogV.preNames (PhysV.lv d),
              k ∉ akeys (aset els' (PhysV.pname d) d) := by
            intro k hk
            rw [hk1]
            simp only [List.mem_append, List.mem_singleton, not_or]
            refine ⟨hfresh' k (by simp [preNamesOf_eq, hk]), ?_⟩
            intro hh
            exact hd1 (hh ▸ hk)
          have hmain := hall d (by simp) (aset els' (PhysV.pname d) d)
            (aset mos' (PhysV.pname d) (some sp)) hnd1' hfresh1
          cases hmv : mapVolumes d (aset els' (PhysV.pname d) d)
              (aset mos' (PhysV.pname d) (some sp)) with
          | mk els2 mos2 =>
            rw [hmv] at hmain
            simp only [mapDaughters, hmv]
            have hkeys2 : akeys els2 =
                (akeys els' ++ [PhysV.pname d]) ++ LogV.preNames (PhysV.lv d) := by
              simpa [hk1] using hmain
            have hfreshR : ∀ k ∈ PhysV.preNamesList rest, k ∉ akeys els2 := by
              intro k hk
              rw [hkeys2]
              simp only [List.mem_append, List.mem_singleton, not_or]
              have hkr : k ∉ PhysV.preNamesOf d := fun hh => hdisj hh hk
              rw [preNamesOf_eq] at hkr
              simp only [List.mem_cons, not_or] at hkr
              exact ⟨⟨hfresh' k (by simp [hk]), hkr.1⟩, hkr.2⟩
            rw [ihr (fun d' hd' => hall d' (by simp [hd'])) sp els2 mos2 hnd2
              hfreshR, hkeys2, preNamesOf_eq]
            simp [List.append_assoc, List.cons_append]
      simp only [mapVolumes]
      exact inner ds ih n els mos hnd hfresh

/-- The child loop of `build_volumes` under well-formed children: every
child is built and placed, the error slot and the orphan and freed ledgers
are untouched, keys outside the children's subtrees keep their entries, and
the placements' preorder names are exactly the children's paths. -/
theorem placeDaughters_ok (mats : List String) :
    ∀ cs : List Volume,
      (∀ c ∈ cs, wf mats c = true) →
      (∀ c ∈ cs, wf mats c = true → ∀ path st,
        (∀ k ∈ pathsOf c path, (afind st.solids k).isSome = true) →
        ∃ lv st', buildVolumes mats c path st = (some lv, st') ∧
          st'.err = st.err ∧ st'.orphans = st.orphans ∧ st'.freed = st.freed ∧
          (∀ k, k ∉ pathsOf c path → afind st'.solids k = afind st.solids k) ∧
          LogV.lname lv = path ++ [c.name] ∧
          LogV.preNames lv = pathsOfList c.children (path ++ [c.name])) →
      (cs.map Volume.name).Nodup →
      ∀ pname st,
        (∀ k ∈ pathsOfList cs pname, (afind st.solids k).isSome = true) →
        ∃ ds st1 placed,
          placeDaughters mats cs pname st = (some ds, st1, placed) ∧
          st1.err = st.err ∧ st1.orphans = st.orphans ∧ st1.freed = st.freed ∧
          (∀ k, k ∉ pathsOfList cs pname →
            afind st1.solids k = afind st.solids k) ∧
          PhysV.preNamesList ds = pathsOfList cs pname := by
  intro cs
  induction cs with
  | nil =>
    intro _ _ _ pname st _
    exact ⟨[], st, [], rfl, rfl, rfl, rfl, fun _ _ => rfl,
      by simp [PhysV.preNamesList, pathsOfList]⟩
  | cons c rest ih =>
    intro hwfs hbuild hnd pname st hpres
    obtain ⟨lv, st1, hbv, he1, ho1, hf1, hu1, hln, hpn1⟩ :=
      hbuild c (by simp) (hwfs c (by simp)) pname st
        (fun k hk => hpres k
          (by simp only [pathsOfList, List.mem_append]; exact Or.inl hk))
    have hpresR : ∀ k ∈ pathsOfList rest pname,
        (afind st1.solids k).isSome = true := by
      intro k hk
      have hkout : k ∉ pathsOf c pname := by
        intro hk'
        obtain ⟨c', hc', hkc'⟩ := (pathsOfList_mem_iff rest pname k).mp hk
        have hne : c.name ≠ c'.name := fun hh =>
          (List.nodup_cons.mp hnd).1 (hh ▸ List.mem_map.mpr ⟨c', hc', rfl⟩)
        exact pathsOf_disjoint c c' pname hne k hk' hkc'
      rw [hu1 k hkout]
      exact hpres k
        (by simp only [pathsOfList, List.mem_append]; exact Or.inr hk)
    obtain ⟨ds, st2, placed, hpd, he2, ho2, hf2, hu2, hpn2⟩ := ih
      (fun c' hc' => hwfs c' (by simp [hc']))
      (fun c' hc' => hbuild c' (by simp [hc']))
      ((List.nodup_cons.mp hnd).2) pname st1 hpresR
    refine ⟨PhysV.mk (pname ++ [c.name]) c.info.rotation
        (V3.smul cmU c.info.position) lv :: ds, st2,
      PhysV.mk (pname ++ [c.name]) c.info.rotation
        (V3.smul cmU c.info.position) lv :: placed,
      ?_, he2.trans he1, ho2.trans ho1, hf2.trans hf1, ?_, ?_⟩
    · simp only [placeDaughters, hbv, hpd]
    · intro k hk
      simp only [pathsOfList, List.mem_append, not_or] at hk
      rw [hu2 k hk.2, hu1 k hk.1]
    · simp only [PhysV.preNamesList, PhysV.preNamesOf, hpn1, hpn2,
        pathsOfList, pathsOf_eq, List.cons_append]

/-- `build_volumes` on a well-formed tree whose solid-table entries are all
present: it succeeds, touches neither the error slot nor the orphan and
freed ledgers, consumes only the subtree's table entries, and builds the
logical volume whose placements' preorder names are exactly the children's
paths. -/
theorem buildVolumes_ok (mats : List String) :
    ∀ v : Volume, wf mats v = true → ∀ path st,
      (∀ k ∈ pathsOf v path, (afind st.solids k).isSome = true) →
      ∃ lv st', buildVolumes mats v path st = (some lv, st') ∧
        st'.err = st.err ∧ st'.orphans = st.orphans ∧ st'.freed = st.freed ∧
        (∀ k, k ∉ pathsOf v path → afind st'.solids k = afind st.solids k) ∧
        LogV.lname lv = path ++ [v.name] ∧
        LogV.preNames lv = pathsOfList v.children (path ++ [v.name]) := by
  intro v
  induction v using Volume.strongInd with
  | _ i cs ih =>
    intro hwf path st hpres
    obtain ⟨hm, hsh, hnames, hov, hsub, hwfc⟩ := wf_parts mats i cs hwf
    have hhd : path ++ [i.name] ∈ pathsOf (.node i cs) path := by
      simp [pathsOf]
    obtain ⟨solid, hfind⟩ := Option.isSome_iff_exists.mp (hpres _ hhd)
    have hpres1 : ∀ k ∈ pathsOfList cs (path ++ [i.name]),
        (afind (aerase st.solids (path ++ [i.name])) k).isSome = true := by
      intro k hk
      have hlen : (path ++ [i.name]).length < k.length := by
        obtain ⟨c, hc, hkc⟩ := (pathsOfList_mem_iff cs _ k).mp hk
        obtain ⟨t, rfl⟩ := mem_pathsOf_shape c _ k hkc
        simp [List.length_append]
      have hne : k ≠ path ++ [i.name] := by
        intro hh; rw [hh] at hlen; omega
      rw [afind_aerase_ne st.solids (path ++ [i.name]) k hne]
      exact hpres k (by simp only [pathsOf, List.mem_cons]; exact Or.inr hk)
    obtain ⟨ds, st2, placed, hpd, he2, ho2, hf2, hu2, hpn⟩ :=
      placeDaughters_ok mats cs hwfc ih hnames (path ++ [i.name])
        { st with solids := aerase st.solids (path ++ [i.name]) } hpres1
    refine ⟨LogV.mk (path ++ [i.name]) solid i.material i.sensitive ds, st2,
      ?_, he2, ho2, hf2, ?_, rfl, ?_⟩
    · simp only [buildVolumes, hfind, hpd]
      rw [if_pos hm]
    · intro k hk
      have hne : k ≠ path ++ [i.name] := fun hh => hk (hh ▸ hhd)
      have hk2 : k ∉ pathsOfList cs (path ++ [i.name]) := fun hh =>
        hk (by simp only [pathsOf, List.mem_cons]; exact Or.inr hh)
      rw [hu2 k hk2]
      exact afind_aerase_ne st.solids (path ++ [i.name]) k hne
    · simpa [LogV.preNames, Volume.children, Volume.name, Volume.info]
        using hpn

/-- The `GeometryData` constructor on a well-formed tree: a world placement
is produced and registered, no error is recorded, the elements index holds
exactly the tree's dotted paths, and the native graph has one placement per
tree node. -/
theorem geometryCtor_ok (mats : List String) (alg : TSTAlgorithm)
    (v : Volume) (h : wf mats v = true) :
    ∃ w, (geometryCtor mats alg v).world = some w ∧
      (geometryCtor mats alg v).err = none ∧
      (geometryCtor mats alg v).registered = true ∧
      akeys (geometryCtor mats alg v).elements = pathsOf v [] ∧
      PhysV.countPV w = nodeCount v := by
  cases v with
  | node i cs =>
    obtain ⟨top, st1, hbs, he1, hp1, hu1⟩ :=
      buildSolids_ok mats alg (.node i cs) h [] St.empty
    have he1' : st1.err = none := he1
    have hkeysGen : ∀ lv : LogV, LogV.preNames lv = pathsOfList cs [i.name] →
        akeys (mapVolumes (PhysV.mk [i.name] none V3.zero lv)
          (aset [] [i.name] (PhysV.mk [i.name] none V3.zero lv))
          (aset [] [i.name] none)).1 = pathsOf (Volume.node i cs) [] := by
      intro lv hpn
      have hnodup := pathsOf_nodup mats (.node i cs) h []
      rw [pathsOf_eq] at hnodup
      simp only [Volume.name, Volume.info, Volume.children,
        List.nil_append] at hnodup
      obtain ⟨hhd, htl⟩ := List.nodup_cons.mp hnodup
      have hfresh : ∀ k ∈ LogV.preNames lv,
          k ∉ akeys (aset ([] : List (Path × PhysV)) [i.name]
            (PhysV.mk [i.name] none V3.zero lv)) := by
        intro k hk
        rw [hpn] at hk
        obtain ⟨c, hc, hkc⟩ := (pathsOfList_mem_iff cs _ k).mp hk
        obtain ⟨t, rfl⟩ := mem_pathsOf_shape c _ k hkc
        simp only [aset, akeys, List.map_cons, List.map_nil,
          List.mem_singleton]
        intro hh
        have := congrArg List.length hh
        simp [List.length_append] at this
      have hmk := mapVolumes_keys (PhysV.mk [i.name] none V3.zero lv)
        (aset [] [i.name] (PhysV.mk [i.name] none V3.zero lv))
        (aset [] [i.name] none) (by simpa [PhysV.lv, hpn] using htl)
        (by simpa [PhysV.lv] using hfresh)
      rw [hmk]
      simp [PhysV.lv, hpn, aset, akeys, pathsOf_eq, Volume.name, Volume.info,
        Volume.children]
    have hcntGen : ∀ lv : LogV, LogV.preNames lv = pathsOfList cs [i.name] →
        PhysV.countPV (PhysV.mk [i.name] none V3.zero lv) =
          nodeCount (Volume.node i cs) := by
      intro lv hpn
      have h1 : PhysV.countPV (PhysV.mk [i.name] none V3.zero lv) =
          1 + LogV.countBelow lv := rfl
      have h2 := pathsOf_length (Volume.node i cs) []
      rw [pathsOf_eq] at h2
      simp only [List.length_cons, Volume.name, Volume.info, Volume.children,
        List.nil_append] at h2
      rw [h1, ← preNames_length, hpn]
      omega
    cases hmv : VInfo.isTranslated i || VInfo.isRotated i with
    | false =>
      obtain ⟨lv, st2, hbv, he2, ho2, hf2, hu2, hln, hpn⟩ :=
        buildVolumes_ok mats (.node i cs) h [] st1 hp1
      have hpn' : LogV.preNames lv = pathsOfList cs [i.name] := by
        simpa [Volume.children, Volume.name, Volume.info] using hpn
      have hctor : geometryCtor mats alg (Volume.node i cs) =
          { world := some (PhysV.mk [i.name] none V3.zero lv),
            elements := (mapVolumes (PhysV.mk [i.name] none V3.zero lv)
              (aset [] [i.name] (PhysV.mk [i.name] none V3.zero lv))
              (aset [] [i.name] none)).1,
            mothers := (mapVolumes (PhysV.mk [i.name] none V3.zero lv)
              (aset [] [i.name] (PhysV.mk [i.name] none V3.zero lv))
              (aset [] [i.name] none)).2,
            orphans := st2.orphans, freed := st2.freed, err := st2.err,
            registered := true } := by
        simp only [geometryCtor, hbs, Volume.info, hmv, Bool.false_eq_true,
          if_false, hbv]
      refine ⟨PhysV.mk [i.name] none V3.zero lv, ?_, ?_, ?_, ?_,
        hcntGen lv hpn'⟩
      · rw [hctor]
      · rw [hctor]
        exact he2.trans he1'
      · rw [hctor]
      · rw [hctor]
        exact hkeysGen lv hpn'
    | true =>
      have hpresD : ∀ k ∈ pathsOf (Volume.node i cs) [],
          (afind (aset st1.solids [i.name]
            (Solid.displaced i.name top i.rotation
              (V3.smul cmU i.position))) k).isSome = true :=
        fun k hk => afind_isSome_aset _ _ _ _ (hp1 k hk)
      obtain ⟨lv, st2, hbv, he2, ho2, hf2, hu2, hln, hpn⟩ :=
        buildVolumes_ok mats (.node i cs) h []
          { st1 with
            orphans := st1.orphans ++ [top],
            solids := aset st1.solids [i.name]
              (Solid.displaced i.name top i.rotation
                (V3.smul cmU i.position)) } hpresD
      have hpn' : LogV.preNames lv = pathsOfList cs [i.name] := by
        simpa [Volume.children, Volume.name, Volume.info] using hpn
      have hctor : geometryCtor mats alg (Volume.node i cs) =
          { world := some (PhysV.mk [i.name] none V3.zero lv),
            elements := (mapVolumes (PhysV.mk [i.name] none V3.zero lv)
              (aset [] [i.name] (PhysV.mk [i.name] none V3.zero lv))
              (aset [] [i.name] none)).1,
            mothers := (mapVolumes (PhysV.mk [i.name] none V3.zero lv)
              (aset [] [i.name] (PhysV.mk [i.name] none V3.zero lv))
              (aset [] [i.name] none)).2,
            orphans := st2.orphans, freed := st2.freed, err := st2.err,
            registered := true } := by
        simp only [geometryCtor, hbs, Volume.info, hmv, if_true, hbv]
      refine ⟨PhysV.mk [i.name] none V3.zero lv, ?_, ?_, ?_, ?_,
        hcntGen lv hpn'⟩
      · rw [hctor]
      · rw [hctor]
        exact he2.trans he1'
      · rw [hctor]
      · rw [hctor]
        exact hkeysGen lv hpn'

/-- C5: for every well-formed volume tree (sibling names unique, subtraction
and overlap pairs referencing only direct children, known materials, valid
shapes), `create_geometry` succeeds with no recorded error, the built native
graph has exactly one placement node per tree node, and the `elements` path
index holds exactly that many entries — one per dotted path, without
duplicates. -/
theorem c5_create_geometry (mats : List String) (alg : TSTAlgorithm)
    (v : Volume) (h : wf mats v = true) :
    ∃ g, (createGeometry mats alg v).borrow = some g ∧
      (createGeometry mats alg v).err = none ∧
      PhysV.countPV g.world = nodeCount v ∧
      akeys g.elements = pathsOf v [] ∧
      (akeys g.elements).Nodup ∧
      g.elements.length = nodeCount v := by
  obtain ⟨w, hw, herr, hreg, hkeys, hcnt⟩ := geometryCtor_ok mats alg v h
  have hcreate : createGeometry mats alg v =
      { borrow := some ⟨w, (geometryCtor mats alg v).elements,
          (geometryCtor mats alg v).mothers,
          (geometryCtor mats alg v).orphans⟩,
        err := none, orphans := [], freed := (geometryCtor mats alg v).freed,
        registered := (geometryCtor mats alg v).registered } := by
    simp only [createGeometry, herr, hw, Option.isSome_none,
      Bool.false_eq_true, if_false]
  refine ⟨⟨w, (geometryCtor mats alg v).elements,
      (geometryCtor mats alg v).mothers,
      (geometryCtor mats alg v).orphans⟩, ?_, ?_, hcnt, hkeys, ?_, ?_⟩
  · rw [hcreate]
  · rw [hcreate]
  · have := pathsOf_nodup mats v h []
    rw [← hkeys] at this
    exact this
  · have h1 := congrArg List.length hkeys
    rw [pathsOf_length] at h1
    simpa [akeys] using h1

theorem c5_create_geometry_witness :
    wf ["Vacuum"] scnTree = true ∧
    (∃ g, (createGeometry ["Vacuum"] .geant4 scnTree).borrow = some g ∧
      (createGeometry ["Vacuum"] .geant4 scnTree).err = none ∧
      PhysV.countPV g.world = nodeCount scnTree ∧
      akeys g.elements = pathsOf scnTree [] ∧
      (akeys g.elements).Nodup ∧
      g.elements.length = nodeCount scnTree) :=
  ⟨by decide, c5_create_geometry ["Vacuum"] .geant4 scnTree (by decide)⟩

end Calzone
